import Mathlib

/-!
Verification of the plaintiff-deduplication pipeline (2021Philly).

Shallow embedding of `src/cleanCountOutcomes.py` and `src/cleanPlaintiffs.py`:
pure string-cleaning functions become Lean functions on `List Char`/`String`,
the regular expressions are translated into explicit scanners with the same
leftmost-match semantics, pandas rows become a `Row` structure, and the
`pdb.set_trace()` anomaly breakpoints become `Except` errors surfaced to the
caller.  Inputs are modelled as newline-free text (court-record fields), so
`.` in a regex is modelled as matching any character and `$` as end of string.
-/

namespace Philly

/-- A pandas cell as seen by the cleaning functions: NaN (blank/NULL fields),
some other float, or a string.  `isinstance(x, float)` + `math.isnan(x)`
distinguish the first two; everything else reaching the cleaners is text. -/
inductive PyVal where
  | nan : PyVal
  | floatVal : PyVal
  | str : String → PyVal
deriving DecidableEq, Repr

/-- Errors surfaced by the embedded code.  The source pauses into `pdb` on
anomalies; the embedding surfaces those breakpoints as typed errors. -/
inductive PyErr where
  | pdbBreakpoint : PyErr
  | emptyResult : PyErr
  | attributeError : String → String → PyErr
deriving DecidableEq, Repr

/-! ### Character classes (Python `re`, ASCII inputs) -/

/-- Python `\s` / `str.strip()` whitespace. -/
def isPySpace (c : Char) : Bool :=
  c = ' ' || c = '\t' || c = '\n' || c = '\r' || c = '\x0b' || c = '\x0c'

def isAsciiUpper (c : Char) : Bool := 'A' ≤ c && c ≤ 'Z'

def isAsciiLower (c : Char) : Bool := 'a' ≤ c && c ≤ 'z'

def isDigitChar (c : Char) : Bool := '0' ≤ c && c ≤ '9'

/-- Python `\w` (ASCII): letter, digit or underscore; used for `\b`. -/
def isWordChar (c : Char) : Bool :=
  isAsciiUpper c || isAsciiLower c || isDigitChar c || c = '_'

/-- Python `str.lower()` restricted to ASCII. -/
def toLowerAscii (c : Char) : Char :=
  if 'A' ≤ c && c ≤ 'Z' then Char.ofNat (c.toNat + 32) else c

/-- Python `str.upper()` restricted to ASCII. -/
def toUpperAscii (c : Char) : Char :=
  if 'a' ≤ c && c ≤ 'z' then Char.ofNat (c.toNat - 32) else c

/-- Python `str.strip()`. -/
def pyStrip (l : List Char) : List Char :=
  ((l.dropWhile isPySpace).reverse.dropWhile isPySpace).reverse

/-! ### `endCaps = re.compile(r'(\b(?:[A-Z]+)\b(?:\s[A-Z]+\b)*\.*)$')`
(cleanCountOutcomes.py line 45) -/

/-- Tail consisting only of literal periods (`\.*` then `$`). -/
def dotsOnly : List Char → Bool
  | [] => true
  | c :: rest => c = '.' && dotsOnly rest

/-- Deterministic acceptor for the `endCaps` group after its first caps
character: continue the `[A-Z]+` run, or end the string, or `\.*` to the
end, or a single `\s` followed by a fresh `[A-Z]+` run.  A
shorter-than-maximal caps run always fails the following `\b` (the next
character would be a word character), so the greedy maximal run is the only
candidate and the scan is deterministic. -/
def ecRunTail : List Char → Bool
  | [] => true
  | c :: r =>
    if isAsciiUpper c then ecRunTail r
    else if c = '.' then dotsOnly r
    else if isPySpace c then
      (match r with
       | [] => false
       | d :: r2 => isAsciiUpper d && ecRunTail r2)
    else false

/-- Does `l` (a suffix of the subject) match the whole `endCaps` group up to
the end of the string? -/
def ecTail : List Char → Bool
  | [] => false
  | c :: r => isAsciiUpper c && ecRunTail r

/-- `\b` before the match: start of string or a non-word character before it
(the first matched character is `A`–`Z`, a word character). -/
def boundaryOK : Option Char → Bool
  | none => true
  | some p => !isWordChar p

/-- `endCaps.sub('', s)`: the match is anchored at `$`, so removing the
leftmost match truncates the string at the earliest position where the
rest matches and the word boundary holds. -/
def endCapsSubGo : Option Char → List Char → List Char
  | _, [] => []
  | prev, c :: rest =>
    if boundaryOK prev && ecTail (c :: rest) then []
    else c :: endCapsSubGo (some c) rest

def endCapsSub (l : List Char) : List Char := endCapsSubGo none l

/-- `s.split('.')[0]`: everything before the first literal period. -/
def splitDotHead (l : List Char) : List Char := l.takeWhile (fun c => c ≠ '.')

/-! ### `datetimeToEnd = re.compile(r'(\s\d{1,2}/\d{1,2}/\d{4} \d{1,2}:\d{2} [AP]M.*)$')`
(cleanCountOutcomes.py line 47) -/

/-- `\d{1,2}` followed by the literal separator `sep`; greedy with
backtracking, which reduces to: two digits then `sep`, else one digit then
`sep`. Returns the remainder after the separator. -/
def digits12 (sep : Char) : List Char → Option (List Char)
  | a :: rest =>
    if isDigitChar a then
      match rest with
      | b :: rest2 =>
        if isDigitChar b then
          match rest2 with
          | c :: rest3 => if c = sep then some rest3 else none
          | [] => none
        else if b = sep then some rest2 else none
      | [] => none
    else none
  | [] => none

/-- `\d{4}`. -/
def digits4 : List Char → Option (List Char)
  | a :: b :: c :: d :: rest =>
    if isDigitChar a && isDigitChar b && isDigitChar c && isDigitChar d then some rest
    else none
  | _ => none

/-- `\d{2}`. -/
def digits2 : List Char → Option (List Char)
  | a :: b :: rest => if isDigitChar a && isDigitChar b then some rest else none
  | _ => none

def expectChar (e : Char) : List Char → Option (List Char)
  | c :: rest => if c = e then some rest else none
  | [] => none

/-- The `datetimeToEnd` pattern after its leading `\s`:
`\d{1,2}/\d{1,2}/\d{4} \d{1,2}:\d{2} [AP]M.*` (the trailing `.*$` accepts
the rest of the line). -/
def dtTail (l : List Char) : Bool :=
  (do
    let r1 ← digits12 '/' l
    let r2 ← digits12 '/' r1
    let r3 ← digits4 r2
    let r4 ← expectChar ' ' r3
    let r5 ← digits12 ':' r4
    let r6 ← digits2 r5
    let r7 ← expectChar ' ' r6
    let r8 ← (match r7 with
      | c :: rest => if c = 'A' || c = 'P' then some rest else none
      | [] => none)
    let _ ← expectChar 'M' r8
    pure ()).isSome

/-- `datetimeToEnd.sub('', s)`: truncate at the leftmost whitespace that
starts a date-time-to-end match. -/
def datetimeSubGo : List Char → List Char
  | [] => []
  | c :: rest => if isPySpace c && dtTail rest then [] else c :: datetimeSubGo rest

/-! ### `cleanOutcome` (cleanCountOutcomes.py lines 63–85) -/

/-- The string pipeline of `cleanOutcome`:
`endCaps.sub('', s).strip()`, then `.split('.')[0]`, then
`datetimeToEnd.sub('', ·).strip()`. -/
def cleanOutcomeCore (l : List Char) : List Char :=
  let cleanedString := pyStrip (endCapsSub l)
  let firstCleaned := splitDotHead cleanedString
  pyStrip (datetimeSubGo firstCleaned)

/-- `cleanOutcome`: NaN (blank/NULL sentinel) returns the literal
`"Blank or NULL"`; a non-NaN float hits `pdb.set_trace()` (surfaced as an
error); text goes through the cleaning pipeline. -/
def cleanOutcome : PyVal → Except PyErr String
  | .nan => .ok "Blank or NULL"
  | .floatVal => .error .pdbBreakpoint
  | .str s => .ok (String.mk (cleanOutcomeCore s.data))

/-! ### `llcMatch = re.compile(r'(llc|,|a/s/o|as subrogee of|\saso\s).*', re.I)`
(cleanPlaintiffs.py line 71) -/

/-- Case-insensitive literal-pattern test: `pat` (already lowercase) begins
`l` after lowering. -/
def startsWithLower : List Char → List Char → Bool
  | [], _ => true
  | _ :: _, [] => false
  | p :: ps, c :: cs => toLowerAscii c = p && startsWithLower ps cs

/-- Does one of the `llcMatch` alternatives match at the head of `l`?
(The alternation order is irrelevant here: any match is discarded together
with everything after it.) -/
def llcMarkerAt (l : List Char) : Bool :=
  startsWithLower ['l', 'l', 'c'] l ||
  startsWithLower [','] l ||
  startsWithLower ['a', '/', 's', '/', 'o'] l ||
  startsWithLower ['a', 's', ' ', 's', 'u', 'b', 'r', 'o', 'g', 'e', 'e', ' ', 'o', 'f'] l ||
  (match l with
   | c :: rest =>
     isPySpace c && startsWithLower ['a', 's', 'o'] rest &&
       (match rest.drop 3 with
        | d :: _ => isPySpace d
        | [] => false)
   | [] => false)

/-- `llcMatch.sub('', s)`: truncate at the leftmost marker occurrence (the
marker and everything after it are removed). -/
def llcSubGo : List Char → List Char
  | [] => []
  | c :: rest => if llcMarkerAt (c :: rest) then [] else c :: llcSubGo rest

/-! ### cleanco `basename` (external library, source not in this repository) -/

/-- Modelled from the spec: the lexicon of business-entity suffix terms which
`cleanco.basename` strips ("Inc., Corp., LLC, LP, Co., etc. — a configurable
lexicon of legal-entity terms"). -/
def entityTerms : List String :=
  ["co", "company", "corp", "corporation", "inc", "incorporated",
   "llc", "llp", "lp", "ltd", "pc", "plc", "assn", "association"]

/-- Modelled from the spec: normalisation used when comparing a token to the
lexicon — lowercase with the punctuation (periods, commas) dropped, so that
`Co.` matches `co`. -/
def normalizeTerm (t : List Char) : List Char :=
  (t.map toLowerAscii).filter (fun c => c ≠ '.' && c ≠ ',')

def isEntityTerm (t : List Char) : Bool :=
  entityTerms.any (fun e => e.data == normalizeTerm t)

/-- Whitespace tokenisation (empty tokens dropped); `cur` accumulates the
current token reversed. -/
def tokensGo (cur : List Char) : List Char → List (List Char)
  | [] => if cur = [] then [] else [cur.reverse]
  | c :: r =>
    if isPySpace c then
      (if cur = [] then tokensGo [] r else cur.reverse :: tokensGo [] r)
    else tokensGo (c :: cur) r

/-- Modelled from the spec: `cleanco.basename(s, terms, prefix=False,
middle=False, suffix=True)` — strip known business-entity suffix terms from
the end of the name ("strip known business-entity suffixes/designators …
from the end of the remaining text"). -/
def basename (s : String) : String :=
  let toks := tokensGo [] s.data
  let keep := (toks.reverse.dropWhile isEntityTerm).reverse
  String.mk (List.intercalate [' '] keep)

/-! ### `cleanPlaintiff` (cleanPlaintiffs.py lines 97–123) -/

/-- `alphaMatch = re.compile(r'[^a-z A-Z0-9]')`: keep ASCII letters, digits
and the space character. -/
def alphaKeep (c : Char) : Bool :=
  ('a' ≤ c && c ≤ 'z') || ('A' ≤ c && c ≤ 'Z') || ('0' ≤ c && c ≤ '9') || c = ' '

/-- The string pipeline of `cleanPlaintiff`: truncate at the first marker
(`llcMatch.sub('', ·).strip()`), strip entity suffixes with
`cleanco.basename` falling back to the pre-strip text when the result is
empty, then remove non-alphanumerics (`alphaMatch.sub`), strip and
uppercase. -/
def cleanPlaintiffCore (s : String) : String :=
  let cleanedString := String.mk (pyStrip (llcSubGo s.data))
  let cleancoName := basename cleanedString
  let cleancoName := if cleancoName = "" then cleanedString else cleancoName
  String.mk ((pyStrip (cleancoName.data.filter alphaKeep)).map toUpperAscii)

/-- `cleanPlaintiff`: NaN returns `"Blank or NULL"`; a non-NaN float hits
`pdb.set_trace()`; a cleaned result that is empty hits the
`blank output` breakpoint (lines 120–122), surfaced as `EmptyResult`. -/
def cleanPlaintiff : PyVal → Except PyErr String
  | .nan => .ok "Blank or NULL"
  | .floatVal => .error .pdbBreakpoint
  | .str s =>
    let out := cleanPlaintiffCore s
    if out = "" then .error .emptyResult else .ok out

/-! ### jellyfish `jaro_similarity` (external library; used by
`createSimilarityMatrix`, cleanPlaintiffs.py lines 161–217).  The standard
Jaro algorithm: greedy in-window matching with flag arrays, then
half-transposition counting; scores are modelled exactly in ℚ (the library
computes the same arithmetic in floating point). -/

/-- The match window radius `max(len1, len2) // 2 - 1`, clamped at zero
(ℕ subtraction). -/
def searchRange (l1 l2 : ℕ) : ℕ := max l1 l2 / 2 - 1

/-- The positions of the second string with their characters, ascending;
the unflagged remainder of this list is the algorithm's flag-array state. -/
def enumFromChars : ℕ → List Char → List (ℕ × Char)
  | _, [] => []
  | n, c :: r => (n, c) :: enumFromChars (n + 1) r

/-- Scan of the match window `[i - r, i + r]` over the unflagged positions:
the first (hence smallest) unflagged position holding character `c` that
lies in the window, exactly as the inner `for j in range(low, hi+1)` loop
finds it. -/
def jaroFind (i r : ℕ) (c : Char) : List (ℕ × Char) → Option ℕ
  | [] => none
  | (q, d) :: rest =>
    if d = c && i ≤ q + r && q ≤ i + r then some q
    else jaroFind i r c rest

/-- Flag position `q` (drop it from the unflagged list). -/
def removeQ (q : ℕ) : List (ℕ × Char) → List (ℕ × Char)
  | [] => []
  | (p, d) :: rest => if p = q then rest else (p, d) :: removeQ q rest

/-- Phase 1 of Jaro: for each position `i` of the first string in order,
greedily flag the smallest unflagged in-window equal character of the
second string.  Returns the matches `(i, q, ch)` with `i` ascending
(`ch` is the matched character, recorded for the transposition phase). -/
def jaroPairsC (r : ℕ) : ℕ → List Char → List (ℕ × Char) → List (ℕ × ℕ × Char)
  | _, [], _ => []
  | i, c :: cs, avail =>
    match jaroFind i r c avail with
    | none => jaroPairsC r (i + 1) cs avail
    | some q => (i, q, c) :: jaroPairsC r (i + 1) cs (removeQ q avail)

/-- Insertion into a list of `(position, char)` pairs sorted by position. -/
def insertByFst (x : ℕ × Char) : List (ℕ × Char) → List (ℕ × Char)
  | [] => [x]
  | y :: r => if x.1 ≤ y.1 then x :: y :: r else y :: insertByFst x r

/-- Sort `(position, char)` pairs by position ascending. -/
def sortByFst (l : List (ℕ × Char)) : List (ℕ × Char) := l.foldr insertByFst []

/-- Phase 2 of Jaro (the doubled transposition count): the k-th matched
character of the first string (flagged `i` ascending) against the k-th
flagged character of the second string (flagged `j` ascending). -/
def jaroTransSource (M : List (ℕ × ℕ × Char)) : ℕ :=
  let u := M.map (fun t => t.2.2)
  let v := (sortByFst (M.map (fun t => (t.2.1, t.2.2)))).map Prod.snd
  ((u.zip v).filter (fun p => p.1 ≠ p.2)).length

/-- jellyfish `jaro_similarity`: `0` when either string is empty or no
characters match; otherwise
`(m/len1 + m/len2 + (m - t)/m) / 3` with `m` the match count and `t` the
transposition count `trans_count // 2`. -/
def jaro (a b : String) : ℚ :=
  let s1 := a.data
  let s2 := b.data
  if s1.length = 0 ∨ s2.length = 0 then 0
  else
    let r := searchRange s1.length s2.length
    let M := jaroPairsC r 0 s1 (enumFromChars 0 s2)
    let m := M.length
    if m = 0 then 0
    else
      let t := jaroTransSource M / 2
      ((m : ℚ) / s1.length + (m : ℚ) / s2.length + ((m : ℚ) - (t : ℚ)) / m) / 3

/-- `createSimilarityMatrix` (lines 193–194): the row for name `A` is
`similarNameList(A, names, jaro_similarity)`, whose entry at column `B` is
`jaro_similarity(B, A)`; so the matrix entry `[A][B]` is `jaro(B, A)`. -/
def similarityMatrix (A B : String) : ℚ := jaro B A

/-- Deduplication (keeping one copy of each value), as `value_counts()`
produces the distinct cleaned names. -/
def dedupStr : List String → List String
  | [] => []
  | x :: r => if x ∈ r then dedupStr r else x :: dedupStr r

/-- The distinct-name set of a run: the distinct values among the cleaned
plaintiff names. -/
def distinctNamesOf (cleaned : List String) : List String := dedupStr cleaned

/-! ### Analysis devices for the Jaro matching.  The greedy flag-array
matching decomposes per character class (flags of one character are never
touched by matches of another), and per class it is a two-pointer sweep,
which is manifestly symmetric; these definitions express those
reformulations. -/

/-- Positions (from offset `i`) at which character `c` occurs. -/
def posOf (c : Char) : ℕ → List Char → List ℕ
  | _, [] => []
  | i, d :: r => if d = c then i :: posOf c (i + 1) r else posOf c (i + 1) r

/-- The unflagged positions holding character `c`. -/
def classAvail (c : Char) (avail : List (ℕ × Char)) : List ℕ :=
  (avail.filter (fun p => p.2 = c)).map Prod.fst

/-- First (smallest) in-window element of an ascending position list. -/
def pickQ (r p : ℕ) : List ℕ → Option ℕ
  | [] => none
  | q :: Q => if p ≤ q + r && q ≤ p + r then some q else pickQ r p Q

/-- Remove the first occurrence of `q`. -/
def eraseNat (q : ℕ) : List ℕ → List ℕ
  | [] => []
  | x :: r => if x = q then r else x :: eraseNat q r

/-- Per-character greedy matching on position lists. -/
def gd (r : ℕ) : List ℕ → List ℕ → List (ℕ × ℕ)
  | [], _ => []
  | p :: P, Q =>
    match pickQ r p Q with
    | none => gd r P Q
    | some q => (p, q) :: gd r P (eraseNat q Q)

/-- Symmetric two-pointer matching on ascending position lists. -/
def tp (r : ℕ) : List ℕ → List ℕ → List (ℕ × ℕ)
  | [], _ => []
  | _ :: _, [] => []
  | p :: P, q :: Q =>
    if q + r < p then tp r (p :: P) Q
    else if p + r < q then tp r P (q :: Q)
    else (p, q) :: tp r P Q
termination_by P Q => P.length + Q.length

/-! ### The annotated table and the cluster-labeling loop
(cleanPlaintiffs.py `main`, lines 347–374) -/

/-- A row of the annotated table: the cleaned fields added by
`plaintiffList`/`outcomeList` plus the cluster columns added in `main`. -/
structure Row where
  plaintiffCleaned : String
  outcomeCleaned : String
  clusterNum : Int
  clusterName : String
deriving DecidableEq, Repr

/-- Lexicographic order on character lists by code point (how Python
compares strings). -/
def charListLe : List Char → List Char → Bool
  | [], _ => true
  | _ :: _, [] => false
  | c :: cs, d :: ds =>
    if c.toNat < d.toNat then true
    else if c.toNat = d.toNat then charListLe cs ds
    else false

def strLe (a b : String) : Bool := charListLe a.data b.data

/-- Insertion of a string into a sorted list. -/
def insertSorted (x : String) : List String → List String
  | [] => [x]
  | y :: r => if strLe x y then x :: y :: r else y :: insertSorted x r

/-- Insertion sort (ascending) on strings. -/
def sortStrings (l : List String) : List String := l.foldr insertSorted []

/-- Collapse adjacent duplicates (deduplication of a sorted list). -/
def collapseAdj : List String → List String
  | [] => []
  | [x] => [x]
  | x :: y :: r => if x = y then collapseAdj (y :: r) else x :: collapseAdj (y :: r)

/-- Occurrence count of a string in a list. -/
def countStr (x : String) : List String → ℕ
  | [] => 0
  | y :: r => (if y = x then 1 else 0) + countStr x r

/-- pandas `Series.mode()[0]`: the most frequent value, ties broken by the
smallest value (`mode()` returns the maximisers sorted ascending).  On an
empty selection the Python raises an indexing error; the pipeline only
evaluates it on nonempty selections, and the embedding returns `""` there. -/
def pandasMode (l : List String) : String :=
  let cands := collapseAdj (sortStrings l)
  cands.foldl (fun best c => if countStr c l > countStr best l then c else best)
    (cands.headD "")

/-- Lines 359–360: `df['ClusterNum'] = -5`, `df['ClusterName'] =
'ZZ-Unclustered'` — invalid placeholders set before the loop. -/
def initAnnotate (df : List Row) : List Row :=
  df.map fun r => { r with clusterNum := -5, clusterName := "ZZ-Unclustered" }

/-- One iteration of the labeling loop (lines 365–374) for cluster position
`ind` with member-name list `names`.  For a non-final position the matching
rows get `ClusterNum = ind` and `ClusterName = mode` of the matching rows'
cleaned names; for the final position (`ind == maxClusterIndex`) the rows
get `ClusterNum = -1` and `ClusterName =` their own cleaned name. -/
def applyCluster (df : List Row) (names : List String) (ind : ℕ) (isLast : Bool) : List Row :=
  if isLast then
    df.map fun r =>
      if r.plaintiffCleaned ∈ names then
        { r with clusterNum := -1, clusterName := r.plaintiffCleaned }
      else r
  else
    let m := pandasMode ((df.filter (fun r => r.plaintiffCleaned ∈ names)).map
      (fun r => r.plaintiffCleaned))
    df.map fun r =>
      if r.plaintiffCleaned ∈ names then
        { r with clusterNum := (ind : Int), clusterName := m }
      else r

/-- The loop `for ind in clusterDF.index`, in ascending order. -/
def labelGo (last : ℕ) : List Row → List (ℕ × List String) → List Row
  | df, [] => df
  | df, (ind, names) :: rest => labelGo last (applyCluster df names ind (ind == last)) rest

/-- The full labeling step: placeholders, then the loop over the cluster
lists with their positional indices, the final position playing the
noise/catch-all role. -/
def labelClusters (df : List Row) (clusterLists : List (List String)) : List Row :=
  labelGo (clusterLists.length - 1) (initAnnotate df) clusterLists.enum

/-- A sample annotated row (pre-labeling) with the given cleaned name. -/
def sampleRowFor (nm : String) : Row :=
  { plaintiffCleaned := nm, outcomeCleaned := "Dismissed", clusterNum := 0,
    clusterName := "" }

/-- Lines 347–352: `clusterSet = set(dbfit.labels_)` iterated in `order`
(the iteration order of a Python set is an implementation artifact, so it is
a parameter here), and for each label the member names
`distanceNames.index[dbfit.labels_ == clust]`. -/
def clusterListsOf (index : List String) (labels : List Int) (order : List Int) :
    List (List String) :=
  order.map fun l => ((index.zip labels).filter (fun p => p.2 == l)).map Prod.fst

/-! ### `dbscanFit` (cleanPlaintiffs.py lines 244–256) and the `eps` /
`min_samples` defaults in `main` (lines 332–336).  DBSCAN itself is an
external sklearn call; the embedding records the call that is made. -/

inductive SKMetric where
  | precomputed
  | euclidean
deriving DecidableEq, Repr

/-- The DBSCAN invocation assembled by `dbscanFit`. -/
structure DBSCANCall where
  eps : ℚ
  minSamples : ℕ
  metric : SKMetric
  index : List String
  dist : String → String → ℚ

/-- The `min_samples=2` default in the `dbscanFit` signature. -/
def dbscanFitMinSamplesDefault : ℕ := 2

/-- `dbscanFit`: converts the loaded similarity matrix to distances
entrywise (`distanceNames = 1 - similarNames`) and calls
`DBSCAN(eps=eps, min_samples=min_samples, metric='precomputed')`. -/
def dbscanFit (index : List String) (sim : String → String → ℚ) (eps : ℚ)
    (minSamples : ℕ) : DBSCANCall :=
  { eps := eps
    minSamples := minSamples
    metric := .precomputed
    index := index
    dist := fun a b => 1 - sim a b }

/-- `main` lines 332–335: `eps = args.eps if args.eps else 0.1` — `None`
and `0.0` are falsy in Python, so both fall back to `0.1`. -/
def mainEps : Option ℚ → ℚ
  | none => 0.1
  | some e => if e = 0 then 0.1 else e

/-- The DBSCAN call made by `main` line 336: `dbscanFit(pickleFileName, eps)`
with `min_samples` left at its signature default. -/
def mainDbscanCall (index : List String) (sim : String → String → ℚ)
    (epsArg : Option ℚ) : DBSCANCall :=
  dbscanFit index sim (mainEps epsArg) dbscanFitMinSamplesDefault

/-! ### The `cleanPlaintiffs.main` entry point (lines 296–394) -/

/-- The top-level names of the `cleanCountOutcomes` module (imports and
definitions); attribute access resolves against these. -/
def cleanCountOutcomesAttrs : List String :=
  ["datetime", "argparse", "pdb", "csv", "pd", "sqlite3", "np", "re", "math",
   "endCaps", "datetimeToEnd", "cleanWholeDF", "cleanOutcome", "outcomeList", "main"]

/-- Python attribute lookup on a module: `AttributeError` when absent. -/
def pyGetattr (module : String) (attrs : List String) (name : String) :
    Except PyErr Unit :=
  if name ∈ attrs then .ok () else .error (.attributeError module name)

/-- `cleanPlaintiffs.main` after argument parsing and `pd.read_csv` (the csv
rows are given): line 319 evaluates `cleanCountOutcomes.removeDuplicates`,
an attribute lookup that precedes the call.  The remaining stages
(`plaintiffList`, `outcomeList`, similarity, clustering, labeling) are the
functions modelled above; they sit behind the lookup. -/
def cleanPlaintiffsMain (csv : List PyVal) (epsArg : Option ℚ) : Except PyErr Unit := do
  let _ ← pyGetattr "cleanCountOutcomes" cleanCountOutcomesAttrs "removeDuplicates"
  let _ ← csv.mapM cleanPlaintiff
  let _ ← csv.mapM cleanOutcome
  let _ := mainEps epsArg
  pure ()

/-- `plaintiffList` (lines 220–241): `outcomes.apply(cleanPlaintiff)`
applies the cleaner to every value in the column, propagating the first
raised exception; `value_counts()` on the result then yields the distinct
cleaned names (`distinctNamesOf`). -/
def plaintiffList : List PyVal → Except PyErr (List String)
  | [] => .ok []
  | x :: r =>
    match cleanPlaintiff x with
    | .error e => .error e
    | .ok s =>
      match plaintiffList r with
      | .error e => .error e
      | .ok rest => .ok (s :: rest)

/-! ## Claim theorems (text normaliser) -/

/-- C6: for the missing-value sentinel (the NaN standing for blank or NULL
fields), both `cleanOutcome` and `cleanPlaintiff` return exactly the literal
string `"Blank or NULL"`. -/
theorem C6_nan_sentinel :
    cleanOutcome .nan = .ok "Blank or NULL" ∧
      cleanPlaintiff .nan = .ok "Blank or NULL" :=
  ⟨rfl, rfl⟩

/-- C2 (code bug): the claim and the source's own documentation say the
date-time suffix of `"Dismissed 07/17/2017 1:15 PM"` is removed, giving
`"Dismissed"`; in fact `endCaps` strips the trailing `"PM"` first, after
which `datetimeToEnd` (which requires a trailing ` AM`/` PM`) cannot match,
so the code returns `"Dismissed 07/17/2017 1:15"`. -/
theorem C2_cleanOutcome_datetime_actual :
    cleanOutcome (.str "Dismissed 07/17/2017 1:15 PM") =
      .ok "Dismissed 07/17/2017 1:15" := by
  rfl

/-- C7: `cleanPlaintiff` on the worked example — truncate at the
case-insensitive `"a/s/o"`, strip the entity suffix `Co.`, remove
non-alphanumerics, trim and uppercase. -/
theorem C7_cleanPlaintiff_example :
    cleanPlaintiff (.str "Victoria Fire and Casualty Co. a/s/o Robert Logan") =
      .ok "VICTORIA FIRE AND CASUALTY" := by
  rfl

/-- C5: whenever the cleaned result of the plaintiff pipeline (marker
truncation, entity-suffix stripping with fallback, non-alphanumeric
removal, trimming, uppercasing) is empty, `cleanPlaintiff` surfaces the
`EmptyResult` anomaly to the caller instead of accepting the value. -/
theorem C5_empty_result (s : String) (h : cleanPlaintiffCore s = "") :
    cleanPlaintiff (.str s) = .error .emptyResult := by
  simp [cleanPlaintiff, h]

/-- Witness for C5 at the concrete input `","`. -/
theorem C5_empty_result_witness :
    cleanPlaintiffCore "," = "" ∧
      cleanPlaintiff (.str ",") = .error .emptyResult :=
  ⟨rfl, C5_empty_result "," rfl⟩

/-! ## Claim theorems (clustering call, entry point, labeling) -/

/-- C8: the clustering step derives the distance matrix entrywise as
`1 − similarity`, runs DBSCAN with the precomputed-distance metric, and when
the caller supplies no values `eps` is `0.1` and `min_samples` is `2`. -/
theorem C8_dbscan_call (index : List String) (sim : String → String → ℚ)
    (a b : String) :
    (mainDbscanCall index sim none).dist a b = 1 - sim a b ∧
      (mainDbscanCall index sim none).metric = SKMetric.precomputed ∧
      (mainDbscanCall index sim none).eps = 0.1 ∧
      (mainDbscanCall index sim none).minSamples = 2 :=
  ⟨rfl, rfl, rfl, rfl⟩

/-- C10: for every input, `cleanPlaintiffs.main` fails with an attribute
error immediately after loading the CSV: it calls
`cleanCountOutcomes.removeDuplicates`, which does not exist in that module
(the duplicate-removal function is `cleanWholeDF`), so none of the cleaning,
similarity or clustering stages behind the lookup is ever reached. -/
theorem C10_main_attribute_error (csv : List PyVal) (epsArg : Option ℚ) :
    cleanPlaintiffsMain csv epsArg =
      .error (.attributeError "cleanCountOutcomes" "removeDuplicates") :=
  rfl

/-- C1 counterexample: `"D"` is a DBSCAN-noise name (its label is `-1`), yet
when the noise group occupies the FIRST position of the cluster enumeration
(`order = [-1, 0]`) the labeling gives its row `ClusterNum = 0` and
`ClusterName = "A"` (the group's mode), not `-1` and its own name — the code
treats whichever group is enumerated last as the noise catch-all, so the
claim's "regardless of which position the noise group occupies" fails. -/
theorem C1_noise_position_counterexample :
    (("D", (-1 : Int)) ∈ (["A", "D", "B", "C"].zip [-1, -1, 0, 0])) ∧
      ((labelClusters
          [sampleRowFor "A", sampleRowFor "A", sampleRowFor "D",
            sampleRowFor "B", sampleRowFor "C"]
          (clusterListsOf ["A", "D", "B", "C"] [-1, -1, 0, 0] [-1, 0])).map
          (fun r => (r.plaintiffCleaned, r.clusterNum, r.clusterName))) =
        [("A", 0, "A"), ("A", 0, "A"), ("D", 0, "A"),
          ("B", -1, "B"), ("C", -1, "C")] := by
  decide

/-- C9 counterexample: a stale persisted matrix (axis labels `["A", "B"]`)
mismatching the current table (which has the name `"NEW"`): no error of any
kind is raised before or during clustering/labeling — the pipeline proceeds
and the row with the unknown name silently keeps the invalid placeholders
`ClusterNum = -5`, `ClusterName = "ZZ-Unclustered"`. -/
theorem C9_stale_matrix_counterexample :
    ("NEW" ∉ ["A", "B"]) ∧
      ((labelClusters [sampleRowFor "A", sampleRowFor "NEW"]
          (clusterListsOf ["A", "B"] [0, -1] [0, -1])).map
          (fun r => (r.plaintiffCleaned, r.clusterNum, r.clusterName))) =
        [("A", 0, "A"), ("NEW", -5, "ZZ-Unclustered")] := by
  decide

/-! ## Helper lemmas -/

theorem toNat_ofNat_valid (n : ℕ) (h : n.isValidChar) : (Char.ofNat n).toNat = n := by
  simp only [Char.ofNat, dif_pos h, Char.ofNatAux, Char.toNat, UInt32.toNat]
  rfl

/-- A character kept by `alphaMatch` never uppercases to `'-'`. -/
theorem toUpperAscii_alpha_ne (c : Char) (hc : alphaKeep c = true) :
    toUpperAscii c ≠ '-' := by
  intro he
  unfold toUpperAscii at he
  split at he
  case isTrue hlow =>
    rw [Bool.and_eq_true, decide_eq_true_eq, decide_eq_true_eq] at hlow
    have h97 : 97 ≤ c.toNat := hlow.1
    have h122 : c.toNat ≤ 122 := hlow.2
    have hval : (c.toNat - 32).isValidChar := Or.inl (by omega)
    have hnat : (Char.ofNat (c.toNat - 32)).toNat = c.toNat - 32 :=
      toNat_ofNat_valid _ hval
    rw [he] at hnat
    have h45 : ('-').toNat = 45 := rfl
    omega
  case isFalse =>
    subst he
    exact absurd hc (by decide)

theorem pyStrip_subset (l : List Char) : ∀ c ∈ pyStrip l, c ∈ l := by
  intro c hc
  unfold pyStrip at hc
  rw [List.mem_reverse] at hc
  have h1 := (List.dropWhile_sublist (l := (l.dropWhile isPySpace).reverse)
    (p := isPySpace)).subset hc
  rw [List.mem_reverse] at h1
  exact (List.dropWhile_sublist (l := l) (p := isPySpace)).subset h1

/-- The `cleanPlaintiffCore` result is an uppercased stripped filtered list. -/
theorem cleanPlaintiffCore_eq (s : String) : ∃ y : List Char,
    cleanPlaintiffCore s = String.mk ((pyStrip (y.filter alphaKeep)).map toUpperAscii) :=
  ⟨_, rfl⟩

/-- Every character of a `cleanPlaintiffCore` result is the uppercased image
of a character kept by `alphaMatch`. -/
theorem cleanPlaintiffCore_chars (s : String) :
    ∀ c ∈ (cleanPlaintiffCore s).data, ∃ d, alphaKeep d = true ∧ c = toUpperAscii d := by
  obtain ⟨y, hy⟩ := cleanPlaintiffCore_eq s
  rw [hy]
  intro c hc
  have hc' : c ∈ (pyStrip (y.filter alphaKeep)).map toUpperAscii := hc
  obtain ⟨d, hd, rfl⟩ := List.mem_map.1 hc'
  have hd2 := pyStrip_subset _ d hd
  exact ⟨d, (List.mem_filter.1 hd2).2, rfl⟩

/-- Successful outputs of `cleanPlaintiff` are never the pre-assignment
placeholder name. -/
theorem cleanPlaintiff_ok_ne_placeholder (x : PyVal) (s : String)
    (h : cleanPlaintiff x = .ok s) : s ≠ "ZZ-Unclustered" := by
  intro he
  cases x with
  | nan =>
    have h' : (Except.ok "Blank or NULL" : Except PyErr String) = .ok s := h
    cases h'
    exact absurd he (by decide)
  | floatVal => cases h
  | str t =>
    simp only [cleanPlaintiff] at h
    split at h
    · exact Except.noConfusion h
    · have hs : cleanPlaintiffCore t = s := Except.ok.inj h
      have hmem : '-' ∈ (cleanPlaintiffCore t).data := by
        rw [hs, he]
        decide
      obtain ⟨d, hd, heq⟩ := cleanPlaintiffCore_chars t '-' hmem
      exact toUpperAscii_alpha_ne d hd heq.symm

theorem insertSorted_perm (x : String) (l : List String) :
    (insertSorted x l).Perm (x :: l) := by
  induction l with
  | nil => exact List.Perm.refl _
  | cons y r ih =>
    unfold insertSorted
    split
    · exact List.Perm.refl _
    · exact ((ih.cons y).trans (List.Perm.swap x y r))

theorem sortStrings_perm (l : List String) : (sortStrings l).Perm l := by
  induction l with
  | nil => exact List.Perm.refl _
  | cons x r ih =>
    exact (insertSorted_perm x (sortStrings r)).trans (ih.cons x)

theorem collapseAdj_subset : ∀ (l : List String), ∀ x ∈ collapseAdj l, x ∈ l
  | [] => by simp [collapseAdj]
  | [x] => by simp [collapseAdj]
  | x :: y :: r => by
    intro z hz
    rw [collapseAdj] at hz
    split at hz
    · exact List.mem_cons_of_mem _ (collapseAdj_subset (y :: r) z hz)
    · rcases List.mem_cons.1 hz with h | h
      · simp [h]
      · exact List.mem_cons_of_mem _ (collapseAdj_subset (y :: r) z h)

theorem collapseAdj_ne_nil : ∀ (l : List String), l ≠ [] → collapseAdj l ≠ []
  | [] => fun h => absurd rfl h
  | [x] => fun _ => by simp [collapseAdj]
  | x :: y :: r => fun _ => by
    rw [collapseAdj]
    split
    · exact collapseAdj_ne_nil (y :: r) (by simp)
    · simp

theorem pickMax_mem (l : List String) (cands : List String) (b : String)
    (hb : b ∈ l) (hc : ∀ c ∈ cands, c ∈ l) :
    cands.foldl (fun best c => if countStr c l > countStr best l then c else best) b ∈ l := by
  induction cands generalizing b with
  | nil => exact hb
  | cons c cs ih =>
    simp only [List.foldl_cons]
    apply ih
    · split
      · exact hc c (by simp)
      · exact hb
    · exact fun c' h => hc c' (by simp [h])

theorem applyCluster_getElem?_not_mem (df : List Row) (names : List String)
    (ind : ℕ) (b : Bool) (k : ℕ) (r : Row) (hr : df[k]? = some r)
    (hn : r.plaintiffCleaned ∉ names) :
    (applyCluster df names ind b)[k]? = some r := by
  cases b <;> simp [applyCluster, List.getElem?_map, hr, hn]

theorem applyCluster_getElem?_mem_last (df : List Row) (names : List String)
    (ind : ℕ) (k : ℕ) (r : Row) (hr : df[k]? = some r)
    (hn : r.plaintiffCleaned ∈ names) :
    (applyCluster df names ind true)[k]? =
      some { r with clusterNum := -1, clusterName := r.plaintiffCleaned } := by
  simp [applyCluster, List.getElem?_map, hr, hn]

/-- A row whose name is in none of the processed member lists is left
untouched by the labeling loop. -/
theorem labelGo_getElem?_untouched (last : ℕ) (items : List (ℕ × List String))
    (df : List Row) (k : ℕ) (r : Row) (hr : df[k]? = some r)
    (h : ∀ p ∈ items, r.plaintiffCleaned ∉ p.2) :
    (labelGo last df items)[k]? = some r := by
  induction items generalizing df with
  | nil => simpa [labelGo] using hr
  | cons p rest ih =>
    obtain ⟨ind, names⟩ := p
    rw [labelGo]
    exact ih (applyCluster df names ind (ind == last))
      (applyCluster_getElem?_not_mem _ _ _ _ _ _ hr (h (ind, names) (by simp)))
      (fun q hq => h q (List.mem_cons_of_mem _ hq))

/-- A row whose name appears in every `last`-positioned member list, and in
no other, ends with `ClusterNum = -1` and `ClusterName` its own name. -/
theorem labelGo_getElem?_noise (last : ℕ) (items : List (ℕ × List String))
    (df : List Row) (k : ℕ) (r : Row) (hr : df[k]? = some r)
    (H1 : ∀ p ∈ items, p.1 = last → r.plaintiffCleaned ∈ p.2)
    (H2 : ∀ p ∈ items, p.1 ≠ last → r.plaintiffCleaned ∉ p.2)
    (H3 : ∃ p ∈ items, p.1 = last) :
    (labelGo last df items)[k]? =
      some { r with clusterNum := -1, clusterName := r.plaintiffCleaned } := by
  induction items generalizing df r with
  | nil =>
    obtain ⟨p, hp, _⟩ := H3
    exact absurd hp (List.not_mem_nil p)
  | cons p rest ih =>
    obtain ⟨ind, names⟩ := p
    rw [labelGo]
    by_cases hi : ind = last
    · have hmem : r.plaintiffCleaned ∈ names := H1 (ind, names) (by simp) hi
      have hb : (ind == last) = true := by simp [hi]
      rw [hb]
      have hstep := applyCluster_getElem?_mem_last df names ind k r hr hmem
      by_cases hrest : ∃ p ∈ rest, p.1 = last
      · exact ih (applyCluster df names ind true)
          { r with clusterNum := -1, clusterName := r.plaintiffCleaned } hstep
          (fun q hq hql => H1 q (List.mem_cons_of_mem _ hq) hql)
          (fun q hq hql => H2 q (List.mem_cons_of_mem _ hq) hql) hrest
      · apply labelGo_getElem?_untouched last rest _ k _ hstep
        intro q hq
        have hql : q.1 ≠ last := fun hee => hrest ⟨q, hq, hee⟩
        exact H2 q (List.mem_cons_of_mem _ hq) hql
    · have hnm : r.plaintiffCleaned ∉ names := H2 (ind, names) (by simp) hi
      have hb : (ind == last) = false := by simp [hi]
      rw [hb]
      have hstep := applyCluster_getElem?_not_mem df names ind false k r hr hnm
      have hrest : ∃ p ∈ rest, p.1 = last := by
        obtain ⟨q, hq, hql⟩ := H3
        rcases List.mem_cons.1 hq with he | hm
        · rw [he] at hql
          exact absurd hql hi
        · exact ⟨q, hm, hql⟩
      exact ih _ r hstep (fun q hq h => H1 q (List.mem_cons_of_mem _ hq) h)
        (fun q hq h => H2 q (List.mem_cons_of_mem _ hq) h) hrest

/-- In a pair list with duplicate-free first components, the first
component determines the second. -/
theorem nodup_fst_mem_unique {α β : Type} (L : List (α × β))
    (h : (L.map Prod.fst).Nodup) {a : α} {b c : β}
    (h1 : (a, b) ∈ L) (h2 : (a, c) ∈ L) : b = c := by
  induction L with
  | nil => exact absurd h1 (List.not_mem_nil _)
  | cons p rest ih =>
    rw [List.map_cons, List.nodup_cons] at h
    rcases List.mem_cons.1 h1 with he1 | hm1 <;> rcases List.mem_cons.1 h2 with he2 | hm2
    · rw [← he2] at he1
      exact (Prod.mk.injEq a b a c ▸ congrArg id he1).2
    · exfalso
      apply h.1
      rw [← he1]
      exact List.mem_map.2 ⟨(a, c), hm2, rfl⟩
    · exfalso
      apply h.1
      rw [← he2]
      exact List.mem_map.2 ⟨(a, b), hm1, rfl⟩
    · exact ih h.2 hm1 hm2

/-- Membership in the member-name list of label `l`. -/
theorem mem_clusterList_iff (index : List String) (labels : List Int) (l : Int)
    (nm : String) :
    nm ∈ (((index.zip labels).filter (fun p => p.2 == l)).map Prod.fst) ↔
      (nm, l) ∈ index.zip labels := by
  constructor
  · intro h
    obtain ⟨p, hp, hfst⟩ := List.mem_map.1 h
    obtain ⟨hz, hl⟩ := List.mem_filter.1 hp
    obtain ⟨p1, p2⟩ := p
    have h2 : p2 = l := by simpa using hl
    subst h2
    have h1 : p1 = nm := hfst
    subst h1
    exact hz
  · intro h
    exact List.mem_map.2 ⟨(nm, l), List.mem_filter.2 ⟨h, by simp⟩, rfl⟩

theorem clusterListsOf_getElem? (index : List String) (labels : List Int)
    (order : List Int) (i : ℕ) :
    (clusterListsOf index labels order)[i]? =
      (order[i]?).map
        (fun l => ((index.zip labels).filter (fun p => p.2 == l)).map Prod.fst) := by
  simp [clusterListsOf, List.getElem?_map]

/-- `pandasMode` of a nonempty list is one of its elements. -/
theorem pandasMode_mem (l : List String) (hl : l ≠ []) : pandasMode l ∈ l := by
  unfold pandasMode
  have hperm := sortStrings_perm l
  have hsne : sortStrings l ≠ [] := by
    intro h
    apply hl
    have hlen := hperm.length_eq
    rw [h] at hlen
    exact List.eq_nil_of_length_eq_zero hlen.symm
  have hcne : collapseAdj (sortStrings l) ≠ [] := collapseAdj_ne_nil _ hsne
  have hsub : ∀ c ∈ collapseAdj (sortStrings l), c ∈ l :=
    fun c hc => hperm.mem_iff.1 (collapseAdj_subset _ c hc)
  apply pickMax_mem
  · cases hcands : collapseAdj (sortStrings l) with
    | nil => exact absurd hcands hcne
    | cons c cs =>
      have : c ∈ collapseAdj (sortStrings l) := by rw [hcands]; simp
      simpa [List.headD] using hsub c this
  · exact hsub

/-- Every name in a nonexhausted index appears in the zip with some label. -/
theorem mem_zip_of_mem_left :
    ∀ (index : List String) (labels : List Int), labels.length = index.length →
      ∀ nm ∈ index, ∃ l, (nm, l) ∈ index.zip labels
  | [], _, _, nm, h => absurd h (List.not_mem_nil nm)
  | x :: xs, [], hlen, nm, h => by simp at hlen
  | x :: xs, y :: ys, hlen, nm, h => by
    rcases List.mem_cons.1 h with he | hm
    · exact ⟨y, by simp [he]⟩
    · obtain ⟨l, hl⟩ := mem_zip_of_mem_left xs ys (by simpa using hlen) nm hm
      exact ⟨l, by simp [hl]⟩

/-- `applyCluster` never changes the cleaned names of the rows. -/
theorem applyCluster_names (df : List Row) (names : List String) (ind : ℕ)
    (b : Bool) (P : String → Prop) (hP : ∀ r ∈ df, P r.plaintiffCleaned) :
    ∀ q ∈ applyCluster df names ind b, P q.plaintiffCleaned := by
  intro q hq
  cases b with
  | true =>
    simp only [applyCluster, if_pos] at hq
    obtain ⟨r, hr, rfl⟩ := List.mem_map.1 hq
    split
    · exact hP r hr
    · exact hP r hr
  | false =>
    simp only [applyCluster, Bool.false_eq_true, if_neg] at hq
    obtain ⟨r, hr, rfl⟩ := List.mem_map.1 hq
    split
    · exact hP r hr
    · exact hP r hr

/-- After one loop iteration each row is either assigned (no placeholder
left) or untouched because its name is not in this iteration's member
list. -/
theorem applyCluster_good (df : List Row) (names : List String) (ind : ℕ)
    (b : Bool) (hN : ∀ r ∈ df, r.plaintiffCleaned ≠ "ZZ-Unclustered") :
    ∀ q ∈ applyCluster df names ind b,
      (q.clusterNum ≠ -5 ∧ q.clusterName ≠ "ZZ-Unclustered") ∨
        (q ∈ df ∧ q.plaintiffCleaned ∉ names) := by
  intro q hq
  cases b with
  | true =>
    simp only [applyCluster, if_pos] at hq
    obtain ⟨r, hr, rfl⟩ := List.mem_map.1 hq
    by_cases hm : r.plaintiffCleaned ∈ names
    · left
      rw [if_pos hm]
      refine ⟨?_, hN r hr⟩
      show (-1 : Int) ≠ -5
      decide
    · right
      rw [if_neg hm]
      exact ⟨hr, hm⟩
  | false =>
    simp only [applyCluster, Bool.false_eq_true, if_neg] at hq
    obtain ⟨r, hr, rfl⟩ := List.mem_map.1 hq
    by_cases hm : r.plaintiffCleaned ∈ names
    · left
      rw [if_pos hm]
      refine ⟨?_, ?_⟩
      · show (ind : Int) ≠ -5
        omega
      · have hsel : r.plaintiffCleaned ∈
            (df.filter (fun r => r.plaintiffCleaned ∈ names)).map
              (fun r => r.plaintiffCleaned) :=
          List.mem_map.2 ⟨r, List.mem_filter.2 ⟨hr, by simp [hm]⟩, rfl⟩
        have hne : (df.filter (fun r => r.plaintiffCleaned ∈ names)).map
            (fun r => r.plaintiffCleaned) ≠ [] := List.ne_nil_of_mem hsel
        have hmode := pandasMode_mem _ hne
        obtain ⟨r', hr', he'⟩ := List.mem_map.1 hmode
        rw [← he']
        exact hN r' (List.mem_filter.1 hr').1
    · right
      rw [if_neg hm]
      exact ⟨hr, hm⟩

/-- Loop invariant: each row ends assigned, or was never touched because its
name is in none of the member lists. -/
theorem labelGo_good (last : ℕ) (items : List (ℕ × List String)) (df : List Row)
    (hN : ∀ r ∈ df, r.plaintiffCleaned ≠ "ZZ-Unclustered") :
    ∀ q ∈ labelGo last df items,
      (q.clusterNum ≠ -5 ∧ q.clusterName ≠ "ZZ-Unclustered") ∨
        (q ∈ df ∧ ∀ p ∈ items, q.plaintiffCleaned ∉ p.2) := by
  induction items generalizing df with
  | nil =>
    intro q hq
    rw [labelGo] at hq
    exact Or.inr ⟨hq, by simp⟩
  | cons p rest ih =>
    obtain ⟨ind, names⟩ := p
    intro q hq
    rw [labelGo] at hq
    have hN' : ∀ r ∈ applyCluster df names ind (ind == last),
        r.plaintiffCleaned ≠ "ZZ-Unclustered" :=
      applyCluster_names df names ind _ (fun s => s ≠ "ZZ-Unclustered") hN
    rcases ih _ hN' q hq with good | ⟨hmem, hrest⟩
    · exact Or.inl good
    · rcases applyCluster_good df names ind _ hN q hmem with good | ⟨hmem0, hnot⟩
      · exact Or.inl good
      · refine Or.inr ⟨hmem0, ?_⟩
        intro p' hp'
        rcases List.mem_cons.1 hp' with he | hm
        · rw [he]
          exact hnot
        · exact hrest p' hm

theorem sum_map_add_nat {α : Type} (f g : α → ℕ) (l : List α) :
    (l.map fun x => f x + g x).sum = (l.map f).sum + (l.map g).sum := by
  induction l with
  | nil => rfl
  | cons x r ih =>
    simp only [List.map_cons, List.sum_cons, ih]
    omega

theorem sum_indicator_eq_count (x : Int) (order : List Int) :
    (order.map fun l => if x = l then 1 else 0).sum = order.count x := by
  induction order with
  | nil => rfl
  | cons o os ih =>
    simp only [List.map_cons, List.sum_cons, List.count_cons, ih]
    by_cases he : x = o
    · simp [he]
      omega
    · have ho : ¬ o = x := fun h => he h.symm
      simp [he, ho]

/-- Splitting a pair count over the distinct values of the second
component. -/
theorem countP_zip_split (a : String) (Z : List (String × Int)) (order : List Int)
    (hnd : order.Nodup) (hcov : ∀ p ∈ Z, p.2 ∈ order) :
    (order.map fun l => Z.countP fun p => p.1 == a && p.2 == l).sum =
      Z.countP fun p => p.1 == a := by
  induction Z with
  | nil => simp
  | cons p Z' ih =>
    have hcov' : ∀ q ∈ Z', q.2 ∈ order := fun q h => hcov q (List.mem_cons_of_mem _ h)
    simp only [List.countP_cons]
    rw [sum_map_add_nat, ih hcov']
    congr 1
    by_cases ha : p.1 = a
    · have hbeq : (p.1 == a) = true := by simp [ha]
      simp only [hbeq, Bool.true_and, if_pos rfl]
      have : (order.map fun l => if (p.2 == l) = true then 1 else 0) =
          (order.map fun l => if p.2 = l then 1 else 0) := by
        apply List.map_congr_left
        intro l _
        by_cases h2 : p.2 = l <;> simp [h2]
      rw [this, sum_indicator_eq_count]
      exact List.count_eq_one_of_mem hnd (hcov p (by simp))
    · have hbeq : (p.1 == a) = false := by simp [ha]
      simp [hbeq]

/-- The member lists of the distinct labels partition the axis-label list:
their concatenation is a permutation of it. -/
theorem clusterLists_flatten_perm (index : List String) (labels : List Int)
    (order : List Int) (hlen : labels.length = index.length)
    (hord : ∀ l : Int, l ∈ order ↔ l ∈ labels) (hordnd : order.Nodup) :
    (clusterListsOf index labels order).flatten.Perm index := by
  rw [List.perm_iff_count]
  intro a
  rw [List.count_eq_countP, List.count_eq_countP]
  unfold clusterListsOf
  rw [List.countP_flatten, List.map_map]
  have hstep : (List.map
      ((List.countP fun x => x == a) ∘
        fun l => ((index.zip labels).filter (fun p => p.2 == l)).map Prod.fst)
      order) =
      order.map (fun l =>
        (index.zip labels).countP fun p => p.1 == a && p.2 == l) := by
    apply List.map_congr_left
    intro l _
    simp only [Function.comp_apply]
    rw [List.countP_map, List.countP_filter]
    rfl
  rw [hstep]
  rw [countP_zip_split a _ order hordnd
    (fun p hp => (hord p.2).2 (List.of_mem_zip hp).2)]
  have hidx : index = (index.zip labels).map Prod.fst :=
    (List.map_fst_zip index labels (le_of_eq hlen.symm)).symm
  have hrhs : List.countP (fun x => x == a) index =
      List.countP (fun p => p.1 == a) (index.zip labels) := by
    conv_lhs => rw [hidx]
    rw [List.countP_map]
    rfl
  rw [hrhs]

/-- C1 amended: the noise handling is positional — when (and only because)
the noise group occupies the LAST position of the cluster enumeration (as
CPython's set iteration happens to place it), every row whose
CleanedPlaintiff has DBSCAN label −1 gets `ClusterNum = −1` and
`ClusterName` equal to its own CleanedPlaintiff. -/
theorem C1_noise_when_last (index : List String) (labels : List Int)
    (order : List Int) (df : List Row) (k : ℕ) (r : Row)
    (hr : df[k]? = some r)
    (hnoise : (r.plaintiffCleaned, (-1 : Int)) ∈ index.zip labels)
    (hnd : index.Nodup) (hlen : labels.length = index.length)
    (hordnd : order.Nodup) (hlast : order.getLast? = some (-1)) :
    (labelClusters df (clusterListsOf index labels order))[k]? =
      some { r with clusterNum := -1, clusterName := r.plaintiffCleaned } := by
  have hr0 : (initAnnotate df)[k]? =
      some { r with clusterNum := -5, clusterName := "ZZ-Unclustered" } := by
    simp [initAnnotate, List.getElem?_map, hr]
  unfold labelClusters
  have hLlen : (clusterListsOf index labels order).length = order.length := by
    simp [clusterListsOf]
  have hlast' : order[order.length - 1]? = some (-1) := by
    rw [← List.getLast?_eq_getElem?]
    exact hlast
  have hfstnd : ((index.zip labels).map Prod.fst).Nodup := by
    rw [List.map_fst_zip index labels (le_of_eq hlen.symm)]
    exact hnd
  have hlists_last : (clusterListsOf index labels order)[order.length - 1]? =
      some (((index.zip labels).filter (fun p => p.2 == (-1 : Int))).map Prod.fst) := by
    rw [clusterListsOf_getElem?, hlast']
    rfl
  have hmain := labelGo_getElem?_noise ((clusterListsOf index labels order).length - 1)
    (clusterListsOf index labels order).enum (initAnnotate df) k
    { r with clusterNum := -5, clusterName := "ZZ-Unclustered" } hr0
    ?_ ?_ ?_
  · exact hmain
  · -- H1: a last-positioned member list contains the noise name
    intro p hp hpl
    rw [List.mem_enum_iff_getElem?] at hp
    rw [hpl, hLlen] at hp
    rw [hlists_last] at hp
    have hp2 : p.2 = ((index.zip labels).filter (fun q => q.2 == (-1 : Int))).map Prod.fst :=
      (Option.some.inj hp).symm
    rw [hp2]
    exact (mem_clusterList_iff index labels (-1) _).2 hnoise
  · -- H2: no other member list contains it
    intro p hp hpl
    rw [List.mem_enum_iff_getElem?] at hp
    rw [clusterListsOf_getElem?] at hp
    obtain ⟨l, hl, hfl⟩ := Option.map_eq_some'.1 hp
    intro hmm
    rw [← hfl] at hmm
    have hzz := (mem_clusterList_iff index labels l _).1 hmm
    have hleq : l = -1 := nodup_fst_mem_unique _ hfstnd hzz hnoise
    subst hleq
    have hplen : p.1 < order.length := by
      by_contra hge
      rw [List.getElem?_eq_none (by omega)] at hl
      cases hl
    have := List.getElem?_inj hplen hordnd (hl.trans hlast'.symm)
    rw [hLlen] at hpl
    exact hpl this
  · -- H3: the last position exists
    have hone : order ≠ [] := by
      intro h
      rw [h] at hlast
      cases hlast
    refine ⟨(order.length - 1,
      ((index.zip labels).filter (fun p => p.2 == (-1 : Int))).map Prod.fst), ?_, ?_⟩
    · rw [List.mem_enum_iff_getElem?]
      exact hlists_last
    · rw [hLlen]

/-- Witness for C1 (amended) on a concrete run: names `A`, `B` cluster, `C`
is noise, the noise label is enumerated last. -/
theorem C1_noise_when_last_witness :
    (labelClusters [sampleRowFor "A", sampleRowFor "B", sampleRowFor "C"]
        (clusterListsOf ["A", "B", "C"] [0, 0, -1] [0, -1]))[2]? =
      some { sampleRowFor "C" with clusterNum := -1, clusterName := "C" } :=
  C1_noise_when_last ["A", "B", "C"] [0, 0, -1] [0, -1]
    [sampleRowFor "A", sampleRowFor "B", sampleRowFor "C"] 2 (sampleRowFor "C")
    (by decide) (by decide) (by decide) (by decide) (by decide) (by decide)

/-- C9 amended: there is no stale-cache detection at all — a row whose
cleaned name is absent from the loaded matrix's axis labels is silently left
with the invalid placeholders (`ClusterNum = -5`,
`ClusterName = "ZZ-Unclustered"`), and no error of any kind is surfaced
before or during clustering. -/
theorem C9_no_stale_detection (index : List String) (labels : List Int)
    (order : List Int) (df : List Row) (k : ℕ) (r : Row)
    (hr : df[k]? = some r) (hmiss : r.plaintiffCleaned ∉ index) :
    (labelClusters df (clusterListsOf index labels order))[k]? =
      some { r with clusterNum := -5, clusterName := "ZZ-Unclustered" } := by
  unfold labelClusters
  apply labelGo_getElem?_untouched
  · simp [initAnnotate, List.getElem?_map, hr]
  · intro p hp
    rw [List.mem_enum_iff_getElem?] at hp
    rw [clusterListsOf_getElem?] at hp
    obtain ⟨l, _, hfl⟩ := Option.map_eq_some'.1 hp
    intro hmm
    rw [← hfl] at hmm
    have hzz := (mem_clusterList_iff index labels l _).1 hmm
    exact hmiss (List.of_mem_zip hzz).1

/-- C4: after labeling, no row retains a pre-assignment placeholder (every
row carries exactly one real `(ClusterNum, ClusterName)` pair), and the
member lists of all groups — the noise/catch-all included — concatenate to
exactly the distinct-name set, each name once.  Hypotheses: the matrix axis
labels are the distinct cleaned names of the table (no stale cache), the
label vector is parallel to them, and the enumeration order covers the
distinct labels once each. -/
theorem C4_labeling_total_and_partition (index : List String) (labels : List Int)
    (order : List Int) (df : List Row)
    (hlen : labels.length = index.length) (_hnd : index.Nodup)
    (hord : ∀ l : Int, l ∈ order ↔ l ∈ labels) (hordnd : order.Nodup)
    (hdf : ∀ r ∈ df, r.plaintiffCleaned ∈ index)
    (hclean : ∀ r ∈ df, ∃ x, cleanPlaintiff x = Except.ok r.plaintiffCleaned) :
    (∀ q ∈ labelClusters df (clusterListsOf index labels order),
        q.clusterNum ≠ -5 ∧ q.clusterName ≠ "ZZ-Unclustered") ∧
      (clusterListsOf index labels order).flatten.Perm index := by
  constructor
  · intro q hq
    unfold labelClusters at hq
    have hN0 : ∀ r ∈ initAnnotate df, r.plaintiffCleaned ≠ "ZZ-Unclustered" := by
      intro r hr
      obtain ⟨r0, hr0, rfl⟩ := List.mem_map.1 hr
      obtain ⟨x, hx⟩ := hclean r0 hr0
      exact cleanPlaintiff_ok_ne_placeholder x _ hx
    rcases labelGo_good _ _ _ hN0 q hq with good | ⟨hmem, hunt⟩
    · exact good
    · exfalso
      obtain ⟨r0, hr0, rfl⟩ := List.mem_map.1 hmem
      have hidx : r0.plaintiffCleaned ∈ index := hdf r0 hr0
      obtain ⟨lab, hzz⟩ := mem_zip_of_mem_left index labels hlen _ hidx
      have hlab : lab ∈ order := (hord lab).2 (List.of_mem_zip hzz).2
      obtain ⟨i, hi, hgi⟩ := List.mem_iff_getElem.1 hlab
      apply hunt (i, ((index.zip labels).filter (fun p => p.2 == lab)).map Prod.fst)
      · rw [List.mem_enum_iff_getElem?]
        rw [clusterListsOf_getElem?]
        rw [List.getElem?_eq_getElem hi, hgi]
        rfl
      · exact (mem_clusterList_iff index labels lab _).2 hzz
  · exact clusterLists_flatten_perm index labels order hlen hord hordnd

/-- Witness for C4 on a concrete run: one row named `A`, axis labels
`["A", "B"]`, labels `[0, -1]`. -/
theorem C4_labeling_total_and_partition_witness :
    (∀ q ∈ labelClusters [sampleRowFor "A"] (clusterListsOf ["A", "B"] [0, -1] [0, -1]),
        q.clusterNum ≠ -5 ∧ q.clusterName ≠ "ZZ-Unclustered") ∧
      (clusterListsOf ["A", "B"] [0, -1] [0, -1]).flatten.Perm ["A", "B"] :=
  C4_labeling_total_and_partition ["A", "B"] [0, -1] [0, -1] [sampleRowFor "A"]
    (by decide) (by decide) (fun l => Iff.rfl) (by decide) (by decide)
    (by
      intro r hr
      rw [List.mem_singleton] at hr
      subst hr
      exact ⟨PyVal.str "A", rfl⟩)

/-- Witness for C9 (amended): the row named `NEW` is missing from the
persisted axis labels and keeps its placeholders. -/
theorem C9_no_stale_detection_witness :
    (labelClusters [sampleRowFor "A", sampleRowFor "NEW"]
        (clusterListsOf ["A", "B"] [0, -1] [0, -1]))[1]? =
      some { sampleRowFor "NEW" with
              clusterNum := -5, clusterName := "ZZ-Unclustered" } :=
  C9_no_stale_detection ["A", "B"] [0, -1] [0, -1]
    [sampleRowFor "A", sampleRowFor "NEW"] 1 (sampleRowFor "NEW")
    (by decide) (by decide)

/-! ## Jaro matching: structural lemmas -/

theorem enumFromChars_length (n : ℕ) (s : List Char) :
    (enumFromChars n s).length = s.length := by
  induction s generalizing n with
  | nil => rfl
  | cons c r ih => simp [enumFromChars, ih]

theorem enumFromChars_fst_ge (n : ℕ) (s : List Char) :
    ∀ p ∈ enumFromChars n s, n ≤ p.1 := by
  induction s generalizing n with
  | nil => intro p hp; cases hp
  | cons c r ih =>
    intro p hp
    rcases List.mem_cons.1 hp with he | hm
    · simp [he]
    · exact le_trans (Nat.le_succ n) (ih (n + 1) p hm)

theorem enumFromChars_pairwise (n : ℕ) (s : List Char) :
    (enumFromChars n s).Pairwise (fun x y => x.1 < y.1) := by
  induction s generalizing n with
  | nil => exact List.Pairwise.nil
  | cons c r ih =>
    refine List.Pairwise.cons ?_ (ih (n + 1))
    intro p hp
    exact lt_of_lt_of_le (Nat.lt_succ_self n) (enumFromChars_fst_ge (n + 1) r p hp)

theorem posOf_ge (c : Char) (i : ℕ) (s : List Char) : ∀ x ∈ posOf c i s, i ≤ x := by
  induction s generalizing i with
  | nil => intro x hx; cases hx
  | cons d r ih =>
    intro x hx
    rw [posOf] at hx
    split at hx
    · rcases List.mem_cons.1 hx with he | hm
      · omega
      · exact le_trans (Nat.le_succ i) (ih (i + 1) x hm)
    · exact le_trans (Nat.le_succ i) (ih (i + 1) x hx)

theorem posOf_pairwise (c : Char) (i : ℕ) (s : List Char) :
    (posOf c i s).Pairwise (· < ·) := by
  induction s generalizing i with
  | nil => exact List.Pairwise.nil
  | cons d r ih =>
    rw [posOf]
    split
    · refine List.Pairwise.cons ?_ (ih (i + 1))
      intro x hx
      exact lt_of_lt_of_le (Nat.lt_succ_self i) (posOf_ge c (i + 1) r x hx)
    · exact ih (i + 1)

theorem classAvail_cons_eq (c : Char) (q : ℕ) (rest : List (ℕ × Char)) :
    classAvail c ((q, c) :: rest) = q :: classAvail c rest := by
  simp [classAvail, List.filter_cons]

theorem classAvail_cons_ne (c d : Char) (hd : d ≠ c) (q : ℕ)
    (rest : List (ℕ × Char)) :
    classAvail c ((q, d) :: rest) = classAvail c rest := by
  simp [classAvail, List.filter_cons, hd]

theorem eraseNat_cons_self (q : ℕ) (r : List ℕ) : eraseNat q (q :: r) = r := by
  simp [eraseNat]

theorem eraseNat_cons_ne (q x : ℕ) (h : x ≠ q) (r : List ℕ) :
    eraseNat q (x :: r) = x :: eraseNat q r := by
  simp [eraseNat, h]

theorem classAvail_enum (c : Char) (n : ℕ) (s : List Char) :
    classAvail c (enumFromChars n s) = posOf c n s := by
  induction s generalizing n with
  | nil => rfl
  | cons d r ih =>
    by_cases hd : d = c
    · subst hd
      rw [enumFromChars, classAvail_cons_eq, posOf, if_pos rfl, ih]
    · rw [enumFromChars, classAvail_cons_ne c d hd, posOf, if_neg hd, ih]

theorem jaroFind_eq_pickQ (i r : ℕ) (c : Char) (avail : List (ℕ × Char)) :
    jaroFind i r c avail = pickQ r i (classAvail c avail) := by
  induction avail with
  | nil => rfl
  | cons p rest ih =>
    obtain ⟨q, d⟩ := p
    by_cases hd : d = c
    · subst hd
      rw [jaroFind, classAvail_cons_eq]
      by_cases h1 : i ≤ q + r <;> by_cases h2 : q ≤ i + r <;>
        simp [pickQ, h1, h2, ih]
    · rw [jaroFind, classAvail_cons_ne c d hd]
      simp [hd, ih]

theorem jaroFind_some (i r : ℕ) (c : Char) (avail : List (ℕ × Char)) (q : ℕ)
    (h : jaroFind i r c avail = some q) :
    (q, c) ∈ avail ∧ i ≤ q + r ∧ q ≤ i + r := by
  induction avail with
  | nil => cases h
  | cons p rest ih =>
    obtain ⟨q', d⟩ := p
    rw [jaroFind] at h
    split at h
    · next hcond =>
      rw [Bool.and_eq_true, Bool.and_eq_true] at hcond
      obtain ⟨⟨hc1, hc2⟩, hc3⟩ := hcond
      have hq : q' = q := Option.some.inj h
      subst hq
      have hdc : d = c := by simpa using hc1
      subst hdc
      exact ⟨by simp, by simpa using hc2, by simpa using hc3⟩
    · obtain ⟨hm, hw⟩ := ih h
      exact ⟨List.mem_cons_of_mem _ hm, hw⟩

theorem removeQ_sublist (q : ℕ) (l : List (ℕ × Char)) :
    (removeQ q l).Sublist l := by
  induction l with
  | nil => exact List.Sublist.refl _
  | cons p rest ih =>
    obtain ⟨p1, d⟩ := p
    rw [removeQ]
    split
    · exact List.sublist_cons_self _ _
    · exact ih.cons₂ _

theorem fstNodup_of_pairwise (l : List (ℕ × Char))
    (h : l.Pairwise (fun x y => x.1 < y.1)) : (l.map Prod.fst).Nodup :=
  List.Pairwise.map Prod.fst (fun _ _ hab => Nat.ne_of_lt hab) h

theorem classAvail_removeQ_eq (q : ℕ) (c : Char) (avail : List (ℕ × Char))
    (hnd : (avail.map Prod.fst).Nodup) (hmem : (q, c) ∈ avail) :
    classAvail c (removeQ q avail) = eraseNat q (classAvail c avail) := by
  induction avail with
  | nil => cases hmem
  | cons p rest ih =>
    obtain ⟨p1, d⟩ := p
    rw [List.map_cons, List.nodup_cons] at hnd
    rw [removeQ]
    by_cases hp : p1 = q
    · subst hp
      have hd : d = c := by
        rcases List.mem_cons.1 hmem with he | hm
        · exact ((Prod.mk.inj he).2).symm
        · exact absurd (List.mem_map.2 ⟨(p1, c), hm, rfl⟩) hnd.1
      subst hd
      rw [if_pos rfl, classAvail_cons_eq, eraseNat_cons_self]
    · rw [if_neg hp]
      have hmem' : (q, c) ∈ rest := by
        rcases List.mem_cons.1 hmem with he | hm
        · exact absurd (Prod.mk.inj he.symm).1 hp
        · exact hm
      by_cases hd : d = c
      · subst hd
        rw [classAvail_cons_eq, classAvail_cons_eq, eraseNat_cons_ne q p1 hp]
        exact congrArg (p1 :: ·) (ih hnd.2 hmem')
      · rw [classAvail_cons_ne c d hd, classAvail_cons_ne c d hd]
        exact ih hnd.2 hmem'

theorem classAvail_removeQ_ne (q : ℕ) (c c' : Char) (hcc : c' ≠ c)
    (avail : List (ℕ × Char)) (hnd : (avail.map Prod.fst).Nodup)
    (hmem : (q, c) ∈ avail) :
    classAvail c' (removeQ q avail) = classAvail c' avail := by
  induction avail with
  | nil => cases hmem
  | cons p rest ih =>
    obtain ⟨p1, d⟩ := p
    rw [List.map_cons, List.nodup_cons] at hnd
    rw [removeQ]
    by_cases hp : p1 = q
    · subst hp
      have hd : d = c := by
        rcases List.mem_cons.1 hmem with he | hm
        · exact ((Prod.mk.inj he).2).symm
        · exact absurd (List.mem_map.2 ⟨(p1, c), hm, rfl⟩) hnd.1
      subst hd
      rw [if_pos rfl, classAvail_cons_ne c' d (fun h => hcc h.symm)]
    · rw [if_neg hp]
      have hmem' : (q, c) ∈ rest := by
        rcases List.mem_cons.1 hmem with he | hm
        · exact absurd (Prod.mk.inj he.symm).1 hp
        · exact hm
      by_cases hd : d = c'
      · subst hd
        rw [classAvail_cons_eq, classAvail_cons_eq]
        exact congrArg (p1 :: ·) (ih hnd.2 hmem')
      · rw [classAvail_cons_ne c' d hd, classAvail_cons_ne c' d hd]
        exact ih hnd.2 hmem'

/-! ## Per-class greedy matching equals the two-pointer sweep -/

theorem pickQ_some (r p : ℕ) (Q : List ℕ) (q : ℕ) (h : pickQ r p Q = some q) :
    p ≤ q + r ∧ q ≤ p + r ∧ q ∈ Q := by
  induction Q with
  | nil => cases h
  | cons x X ih =>
    rw [pickQ] at h
    split at h
    · next hc =>
      have hx : x = q := Option.some.inj h
      subst hx
      rw [Bool.and_eq_true, decide_eq_true_eq, decide_eq_true_eq] at hc
      exact ⟨hc.1, hc.2, by simp⟩
    · obtain ⟨h1, h2, h3⟩ := ih h
      exact ⟨h1, h2, List.mem_cons_of_mem _ h3⟩

theorem pickQ_none_of_all (r p : ℕ) (Q : List ℕ)
    (h : ∀ x ∈ Q, p + r < x) : pickQ r p Q = none := by
  induction Q with
  | nil => rfl
  | cons x X ih =>
    rw [pickQ]
    have hx : ¬ (x ≤ p + r) := by
      have := h x (by simp)
      omega
    rw [if_neg (by simp [hx])]
    exact ih (fun y hy => h y (List.mem_cons_of_mem _ hy))

theorem pickQ_cons_dead (r p q : ℕ) (Q : List ℕ) (h : q + r < p) :
    pickQ r p (q :: Q) = pickQ r p Q := by
  rw [pickQ]
  have hx : ¬ (p ≤ q + r) := by omega
  rw [if_neg (by simp [hx])]

theorem gd_cons_none (r p : ℕ) (P Q : List ℕ) (h : pickQ r p Q = none) :
    gd r (p :: P) Q = gd r P Q := by
  rw [gd, h]

theorem gd_cons_some (r p : ℕ) (P Q : List ℕ) (q : ℕ)
    (h : pickQ r p Q = some q) :
    gd r (p :: P) Q = (p, q) :: gd r P (eraseNat q Q) := by
  rw [gd, h]

theorem gd_nil_right (r : ℕ) (P : List ℕ) : gd r P [] = [] := by
  induction P with
  | nil => rfl
  | cons p P' ih =>
    rw [gd_cons_none r p P' [] rfl]
    exact ih

theorem tp_nil_left (r : ℕ) (Q : List ℕ) : tp r [] Q = [] := by
  rw [tp]

theorem tp_nil_right (r : ℕ) (P : List ℕ) : tp r P [] = [] := by
  cases P with
  | nil => rw [tp]
  | cons a b => rw [tp]

/-- A head position below every window is dead: removing it does not change
the greedy matching. -/
theorem gd_dead (r q : ℕ) (P Q : List ℕ) (h : ∀ p ∈ P, q + r < p) :
    gd r P (q :: Q) = gd r P Q := by
  induction P generalizing Q with
  | nil => rfl
  | cons p P' ih =>
    have hq : q + r < p := h p (by simp)
    cases hpick : pickQ r p Q with
    | none =>
      rw [gd_cons_none r p P' (q :: Q) (by rw [pickQ_cons_dead r p q Q hq]; exact hpick),
        gd_cons_none r p P' Q hpick]
      exact ih Q (fun p' hp' => h p' (List.mem_cons_of_mem _ hp'))
    | some qq =>
      rw [gd_cons_some r p P' (q :: Q) qq
          (by rw [pickQ_cons_dead r p q Q hq]; exact hpick),
        gd_cons_some r p P' Q qq hpick]
      have hne : q ≠ qq := by
        obtain ⟨h1, _, _⟩ := pickQ_some r p Q qq hpick
        omega
      rw [eraseNat_cons_ne qq q hne]
      exact congrArg ((p, qq) :: ·) (ih (eraseNat qq Q)
        (fun p' hp' => h p' (List.mem_cons_of_mem _ hp')))

theorem gd_eq_tp_aux (r : ℕ) : ∀ (n : ℕ) (P Q : List ℕ), P.length + Q.length ≤ n →
    P.Pairwise (· < ·) → Q.Pairwise (· < ·) → gd r P Q = tp r P Q := by
  intro n
  induction n with
  | zero =>
    intro P Q hle _ _
    have hP0 : P = [] := by
      cases P with
      | nil => rfl
      | cons a b => simp at hle
    have hQ0 : Q = [] := by
      cases Q with
      | nil => rfl
      | cons a b => simp at hle
    subst hP0
    subst hQ0
    rw [gd, tp_nil_left]
  | succ n ih =>
    intro P Q hle hP hQ
    cases P with
    | nil => rw [gd, tp_nil_left]
    | cons p P' =>
      cases Q with
      | nil => rw [gd_nil_right, tp_nil_right]
      | cons q Q' =>
        rw [tp]
        by_cases h1 : q + r < p
        · rw [if_pos h1]
          have hdead : ∀ p' ∈ p :: P', q + r < p' := by
            intro p' hp'
            rcases List.mem_cons.1 hp' with he | hm
            · omega
            · have := (List.pairwise_cons.1 hP).1 p' hm
              omega
          rw [gd_dead r q (p :: P') Q' hdead]
          exact ih (p :: P') Q' (by simp at hle ⊢; omega) hP
            (List.pairwise_cons.1 hQ).2
        · rw [if_neg h1]
          by_cases h2 : p + r < q
          · rw [if_pos h2]
            have hnone : pickQ r p (q :: Q') = none := by
              apply pickQ_none_of_all
              intro x hx
              rcases List.mem_cons.1 hx with he | hm
              · omega
              · have := (List.pairwise_cons.1 hQ).1 x hm
                omega
            rw [gd_cons_none r p P' (q :: Q') hnone]
            exact ih P' (q :: Q') (by simp at hle ⊢; omega)
              (List.pairwise_cons.1 hP).2 hQ
          · rw [if_neg h2]
            have hpick : pickQ r p (q :: Q') = some q := by
              rw [pickQ]
              have ha : p ≤ q + r := by omega
              have hb : q ≤ p + r := by omega
              simp [ha, hb]
            rw [gd_cons_some r p P' (q :: Q') q hpick]
            rw [eraseNat_cons_self]
            exact congrArg ((p, q) :: ·) (ih P' Q' (by simp at hle ⊢; omega)
              (List.pairwise_cons.1 hP).2 (List.pairwise_cons.1 hQ).2)

theorem gd_eq_tp (r : ℕ) (P Q : List ℕ)
    (hP : P.Pairwise (· < ·)) (hQ : Q.Pairwise (· < ·)) : gd r P Q = tp r P Q :=
  gd_eq_tp_aux r (P.length + Q.length) P Q (le_refl _) hP hQ

theorem tp_swap_aux (r : ℕ) : ∀ (n : ℕ) (P Q : List ℕ), P.length + Q.length ≤ n →
    tp r P Q = (tp r Q P).map Prod.swap := by
  intro n
  induction n with
  | zero =>
    intro P Q hle
    have hP0 : P = [] := by
      cases P with
      | nil => rfl
      | cons a b => simp at hle
    subst hP0
    rw [tp_nil_left, tp_nil_right]
    rfl
  | succ n ih =>
    intro P Q hle
    cases P with
    | nil =>
      rw [tp_nil_left, tp_nil_right]
      rfl
    | cons p P' =>
      cases Q with
      | nil => rw [tp_nil_right, tp_nil_left]; rfl
      | cons q Q' =>
        rw [tp, tp]
        by_cases h1 : q + r < p
        · have h2 : ¬ (p + r < q) := by omega
          rw [if_pos h1, if_neg h2, if_pos h1]
          exact ih (p :: P') Q' (by simp at hle ⊢; omega)
        · rw [if_neg h1]
          by_cases h2 : p + r < q
          · rw [if_pos h2, if_pos h2]
            exact ih P' (q :: Q') (by simp at hle ⊢; omega)
          · rw [if_neg h2, if_neg h2, if_neg h1]
            rw [List.map_cons]
            exact congrArg ((p, q) :: ·) (ih P' Q' (by simp at hle ⊢; omega))

theorem tp_swap (r : ℕ) (P Q : List ℕ) :
    tp r P Q = (tp r Q P).map Prod.swap :=
  tp_swap_aux r (P.length + Q.length) P Q (le_refl _)

/-! ## The flag-array greedy matching decomposes per character class -/

theorem jaroPairsC_cons_none (r i : ℕ) (c0 : Char) (cs : List Char)
    (avail : List (ℕ × Char)) (h : jaroFind i r c0 avail = none) :
    jaroPairsC r i (c0 :: cs) avail = jaroPairsC r (i + 1) cs avail := by
  rw [jaroPairsC, h]

theorem jaroPairsC_cons_some (r i : ℕ) (c0 : Char) (cs : List Char)
    (avail : List (ℕ × Char)) (q : ℕ) (h : jaroFind i r c0 avail = some q) :
    jaroPairsC r i (c0 :: cs) avail =
      (i, q, c0) :: jaroPairsC r (i + 1) cs (removeQ q avail) := by
  rw [jaroPairsC, h]

/-- Flags of one character class are never touched by matches of another:
the class-`c` slice of the greedy matching is exactly the per-class greedy
matching `gd` on the class position lists. -/
theorem jaroPairsC_class (r : ℕ) (cs : List Char) :
    ∀ (i : ℕ) (avail : List (ℕ × Char)),
      avail.Pairwise (fun x y => x.1 < y.1) →
      ∀ c : Char,
        ((jaroPairsC r i cs avail).filter (fun t => t.2.2 = c)).map
            (fun t => (t.1, t.2.1)) =
          gd r (posOf c i cs) (classAvail c avail) := by
  induction cs with
  | nil =>
    intro i avail _ c
    rw [jaroPairsC, posOf, gd, List.filter_nil, List.map_nil]
  | cons c0 cs ih =>
    intro i avail hav c
    cases hfind : jaroFind i r c0 avail with
    | none =>
      rw [jaroPairsC_cons_none r i c0 cs avail hfind]
      by_cases hc : c0 = c
      · subst hc
        rw [posOf, if_pos rfl]
        have hpick : pickQ r i (classAvail c0 avail) = none := by
          rw [← jaroFind_eq_pickQ]
          exact hfind
        rw [gd_cons_none r i _ _ hpick]
        exact ih (i + 1) avail hav c0
      · rw [posOf, if_neg hc]
        exact ih (i + 1) avail hav c
    | some q =>
      rw [jaroPairsC_cons_some r i c0 cs avail q hfind]
      obtain ⟨hmem, hw1, hw2⟩ := jaroFind_some i r c0 avail q hfind
      have hnd : (avail.map Prod.fst).Nodup := fstNodup_of_pairwise avail hav
      have hav' : (removeQ q avail).Pairwise (fun x y => x.1 < y.1) :=
        List.Pairwise.sublist (removeQ_sublist q avail) hav
      by_cases hc : c0 = c
      · subst hc
        rw [List.filter_cons, if_pos (by simp), List.map_cons]
        rw [posOf, if_pos rfl]
        have hpick : pickQ r i (classAvail c0 avail) = some q := by
          rw [← jaroFind_eq_pickQ]
          exact hfind
        rw [gd_cons_some r i _ _ q hpick]
        rw [← classAvail_removeQ_eq q c0 avail hnd hmem]
        exact congrArg ((i, q) :: ·) (ih (i + 1) (removeQ q avail) hav' c0)
      · rw [List.filter_cons, if_neg (by simp [hc])]
        rw [posOf, if_neg hc]
        rw [← classAvail_removeQ_ne q c0 c (fun h => hc h.symm) avail hnd hmem]
        exact ih (i + 1) (removeQ q avail) hav' c

/-! ## Structural facts about the matched pairs -/

theorem jaroPairsC_fst_ge (r : ℕ) (cs : List Char) :
    ∀ (i : ℕ) (avail : List (ℕ × Char)), ∀ t ∈ jaroPairsC r i cs avail, i ≤ t.1 := by
  induction cs with
  | nil =>
    intro i avail t ht
    rw [jaroPairsC] at ht
    cases ht
  | cons c0 cs ih =>
    intro i avail t ht
    cases hfind : jaroFind i r c0 avail with
    | none =>
      rw [jaroPairsC_cons_none r i c0 cs avail hfind] at ht
      exact le_trans (Nat.le_succ i) (ih (i + 1) avail t ht)
    | some q =>
      rw [jaroPairsC_cons_some r i c0 cs avail q hfind] at ht
      rcases List.mem_cons.1 ht with he | hm
      · simp [he]
      · exact le_trans (Nat.le_succ i) (ih (i + 1) (removeQ q avail) t hm)

theorem jaroPairsC_fst_pairwise (r : ℕ) (cs : List Char) :
    ∀ (i : ℕ) (avail : List (ℕ × Char)),
      (jaroPairsC r i cs avail).Pairwise (fun a b => a.1 < b.1) := by
  induction cs with
  | nil =>
    intro i avail
    rw [jaroPairsC]
    exact List.Pairwise.nil
  | cons c0 cs ih =>
    intro i avail
    cases hfind : jaroFind i r c0 avail with
    | none =>
      rw [jaroPairsC_cons_none r i c0 cs avail hfind]
      exact ih (i + 1) avail
    | some q =>
      rw [jaroPairsC_cons_some r i c0 cs avail q hfind]
      refine List.Pairwise.cons ?_ (ih (i + 1) (removeQ q avail))
      intro t ht
      exact lt_of_lt_of_le (Nat.lt_succ_self i)
        (jaroPairsC_fst_ge r cs (i + 1) (removeQ q avail) t ht)

theorem jaroPairsC_snd_mem (r : ℕ) (cs : List Char) :
    ∀ (i : ℕ) (avail : List (ℕ × Char)), ∀ t ∈ jaroPairsC r i cs avail,
      t.2.1 ∈ avail.map Prod.fst := by
  induction cs with
  | nil =>
    intro i avail t ht
    rw [jaroPairsC] at ht
    cases ht
  | cons c0 cs ih =>
    intro i avail t ht
    cases hfind : jaroFind i r c0 avail with
    | none =>
      rw [jaroPairsC_cons_none r i c0 cs avail hfind] at ht
      exact ih (i + 1) avail t ht
    | some q =>
      rw [jaroPairsC_cons_some r i c0 cs avail q hfind] at ht
      obtain ⟨hmem, _, _⟩ := jaroFind_some i r c0 avail q hfind
      rcases List.mem_cons.1 ht with he | hm
      · rw [he]
        exact List.mem_map.2 ⟨(q, c0), hmem, rfl⟩
      · have := ih (i + 1) (removeQ q avail) t hm
        exact (List.Sublist.map Prod.fst (removeQ_sublist q avail)).subset this

theorem removeQ_fst_not_mem (q : ℕ) (c : Char) (avail : List (ℕ × Char))
    (hnd : (avail.map Prod.fst).Nodup) (hmem : (q, c) ∈ avail) :
    q ∉ (removeQ q avail).map Prod.fst := by
  induction avail with
  | nil => cases hmem
  | cons p rest ih =>
    obtain ⟨p1, d⟩ := p
    rw [List.map_cons, List.nodup_cons] at hnd
    rw [removeQ]
    by_cases hp : p1 = q
    · subst hp
      rw [if_pos rfl]
      exact hnd.1
    · rw [if_neg hp]
      have hmem' : (q, c) ∈ rest := by
        rcases List.mem_cons.1 hmem with he | hm
        · exact absurd (Prod.mk.inj he.symm).1 hp
        · exact hm
      rw [List.map_cons]
      intro hcon
      rcases List.mem_cons.1 hcon with he | hm
      · exact hp he.symm
      · exact ih hnd.2 hmem' hm

theorem jaroPairsC_snd_nodup (r : ℕ) (cs : List Char) :
    ∀ (i : ℕ) (avail : List (ℕ × Char)), (avail.map Prod.fst).Nodup →
      ((jaroPairsC r i cs avail).map (fun t => t.2.1)).Nodup := by
  induction cs with
  | nil =>
    intro i avail _
    rw [jaroPairsC]
    exact List.Pairwise.nil
  | cons c0 cs ih =>
    intro i avail hnd
    cases hfind : jaroFind i r c0 avail with
    | none =>
      rw [jaroPairsC_cons_none r i c0 cs avail hfind]
      exact ih (i + 1) avail hnd
    | some q =>
      rw [jaroPairsC_cons_some r i c0 cs avail q hfind]
      obtain ⟨hmem, _, _⟩ := jaroFind_some i r c0 avail q hfind
      have hnd' : ((removeQ q avail).map Prod.fst).Nodup :=
        List.Nodup.sublist (List.Sublist.map Prod.fst (removeQ_sublist q avail)) hnd
      rw [List.map_cons, List.nodup_cons]
      refine ⟨?_, ih (i + 1) (removeQ q avail) hnd'⟩
      intro hcon
      obtain ⟨t, ht, hte⟩ := List.mem_map.1 hcon
      have := jaroPairsC_snd_mem r cs (i + 1) (removeQ q avail) t ht
      rw [hte] at this
      exact removeQ_fst_not_mem q c0 avail hnd hmem this

/-! ## Count transfer between triples and pairs -/

theorem count_filter_map_pair {bt : BEq (ℕ × ℕ × Char)} {bp : BEq (ℕ × ℕ)}
    [@LawfulBEq (ℕ × ℕ × Char) bt] [@LawfulBEq (ℕ × ℕ) bp]
    (L : List (ℕ × ℕ × Char)) (c : Char)
    (hL : ∀ t ∈ L, t.2.2 = c) (i j : ℕ) :
    L.count (i, j, c) = (L.map (fun t => (t.1, t.2.1))).count (i, j) := by
  induction L with
  | nil => rfl
  | cons t L' ih =>
    obtain ⟨t1, t2, tc⟩ := t
    have htc : tc = c := hL (t1, t2, tc) (by simp)
    subst htc
    rw [List.map_cons, List.count_cons, List.count_cons,
      ih (fun u hu => hL u (List.mem_cons_of_mem _ hu))]
    congr 1
    by_cases h1 : t1 = i <;> by_cases h2 : t2 = j <;>
      simp [h1, h2, Prod.ext_iff, beq_iff_eq]

theorem count_map_swapT {bt : BEq (ℕ × ℕ × Char)} [@LawfulBEq (ℕ × ℕ × Char) bt]
    (L : List (ℕ × ℕ × Char)) (x : ℕ × ℕ × Char) :
    (L.map (fun t => (t.2.1, t.1, t.2.2))).count x = L.count (x.2.1, x.1, x.2.2) := by
  induction L with
  | nil => rfl
  | cons t L' ih =>
    obtain ⟨t1, t2, tc⟩ := t
    obtain ⟨x1, x2, xc⟩ := x
    rw [List.map_cons, List.count_cons, List.count_cons, ih]
    congr 1
    by_cases h1 : t1 = x2 <;> by_cases h2 : t2 = x1 <;> by_cases h3 : tc = xc <;>
      simp [h1, h2, h3, Prod.ext_iff, beq_iff_eq]

theorem count_map_swapP {bp : BEq (ℕ × ℕ)} [@LawfulBEq (ℕ × ℕ) bp]
    (L : List (ℕ × ℕ)) (x : ℕ × ℕ) :
    (L.map Prod.swap).count x = L.count (x.2, x.1) := by
  induction L with
  | nil => rfl
  | cons t L' ih =>
    obtain ⟨t1, t2⟩ := t
    obtain ⟨x1, x2⟩ := x
    rw [List.map_cons, List.count_cons, List.count_cons, ih]
    congr 1
    by_cases h1 : t1 = x2 <;> by_cases h2 : t2 = x1 <;>
      simp [h1, h2, Prod.ext_iff, Prod.swap, beq_iff_eq]

/-! ## Sorting the flagged positions -/

theorem insertByFst_perm (x : ℕ × Char) (l : List (ℕ × Char)) :
    (insertByFst x l).Perm (x :: l) := by
  induction l with
  | nil => exact List.Perm.refl _
  | cons y r ih =>
    rw [insertByFst]
    split
    · exact List.Perm.refl _
    · exact (ih.cons y).trans (List.Perm.swap x y r)

theorem sortByFst_perm (l : List (ℕ × Char)) : (sortByFst l).Perm l := by
  induction l with
  | nil => exact List.Perm.refl _
  | cons x r ih => exact (insertByFst_perm x (sortByFst r)).trans (ih.cons x)

theorem insertByFst_sorted (x : ℕ × Char) (l : List (ℕ × Char))
    (h : l.Pairwise (fun a b => a.1 ≤ b.1)) :
    (insertByFst x l).Pairwise (fun a b => a.1 ≤ b.1) := by
  induction l with
  | nil => exact List.pairwise_singleton _ _
  | cons y r ih =>
    rw [insertByFst]
    split
    · next hxy =>
      refine List.Pairwise.cons ?_ h
      intro z hz
      rcases List.mem_cons.1 hz with he | hm
      · rw [he]
        exact hxy
      · exact le_trans hxy ((List.pairwise_cons.1 h).1 z hm)
    · next hxy =>
      refine List.Pairwise.cons ?_ (ih (List.pairwise_cons.1 h).2)
      intro z hz
      have hz' : z ∈ x :: r := (insertByFst_perm x r).mem_iff.1 hz
      rcases List.mem_cons.1 hz' with he | hm
      · rw [he]
        omega
      · exact (List.pairwise_cons.1 h).1 z hm

theorem sortByFst_sorted (l : List (ℕ × Char)) :
    (sortByFst l).Pairwise (fun a b => a.1 ≤ b.1) := by
  induction l with
  | nil => exact List.Pairwise.nil
  | cons x r ih => exact insertByFst_sorted x (sortByFst r) ih

/-- Sorted-by-position pair lists with duplicate-free positions that are
permutations of each other coincide. -/
theorem sorted_fst_eq_of_perm (l₁ l₂ : List (ℕ × Char)) (h : l₁.Perm l₂)
    (h₁ : l₁.Pairwise (fun a b => a.1 < b.1))
    (h₂ : l₂.Pairwise (fun a b => a.1 < b.1)) : l₁ = l₂ := by
  haveI : IsAntisymm (ℕ × Char) (fun a b => a.1 < b.1) :=
    ⟨fun a b hab hba => absurd (lt_trans hab hba) (lt_irrefl _)⟩
  exact List.eq_of_perm_of_sorted h h₁ h₂

theorem pairwise_le_nodup_fst_lt (l : List (ℕ × Char))
    (hle : l.Pairwise (fun a b => a.1 ≤ b.1)) (hnd : (l.map Prod.fst).Nodup) :
    l.Pairwise (fun a b => a.1 < b.1) := by
  induction l with
  | nil => exact List.Pairwise.nil
  | cons x r ih =>
    rw [List.map_cons, List.nodup_cons] at hnd
    refine List.Pairwise.cons ?_ (ih (List.pairwise_cons.1 hle).2 hnd.2)
    intro y hy
    have hle' := (List.pairwise_cons.1 hle).1 y hy
    have hne : x.1 ≠ y.1 := fun he =>
      hnd.1 (he ▸ List.mem_map.2 ⟨y, hy, rfl⟩)
    omega

theorem mismatch_comm : ∀ (u v : List Char),
    ((u.zip v).filter (fun p => p.1 ≠ p.2)).length =
      ((v.zip u).filter (fun p => p.1 ≠ p.2)).length := by
  intro u
  induction u with
  | nil => intro v; cases v <;> rfl
  | cons a u' ih =>
    intro v
    cases v with
    | nil => rfl
    | cons b v' =>
      rw [List.zip_cons_cons, List.zip_cons_cons, List.filter_cons, List.filter_cons]
      by_cases hab : a = b
      · rw [if_neg (by simp [hab]), if_neg (by simp [hab])]
        exact ih v'
      · have hba : ¬ b = a := fun h => hab h.symm
        rw [if_pos (by simp [hab]), if_pos (by simp [hba])]
        rw [List.length_cons, List.length_cons, ih v']

/-! ## Symmetry of the Jaro matching -/

theorem jaroPairs_class_swap (r : ℕ) (s1 s2 : List Char) (c : Char) :
    ((jaroPairsC r 0 s2 (enumFromChars 0 s1)).filter (fun t => t.2.2 = c)).map
        (fun t => (t.1, t.2.1)) =
      (((jaroPairsC r 0 s1 (enumFromChars 0 s2)).filter (fun t => t.2.2 = c)).map
        (fun t => (t.1, t.2.1))).map Prod.swap := by
  rw [jaroPairsC_class r s2 0 (enumFromChars 0 s1) (enumFromChars_pairwise 0 s1) c,
    jaroPairsC_class r s1 0 (enumFromChars 0 s2) (enumFromChars_pairwise 0 s2) c,
    classAvail_enum, classAvail_enum,
    gd_eq_tp r (posOf c 0 s2) (posOf c 0 s1) (posOf_pairwise c 0 s2)
      (posOf_pairwise c 0 s1),
    gd_eq_tp r (posOf c 0 s1) (posOf c 0 s2) (posOf_pairwise c 0 s1)
      (posOf_pairwise c 0 s2)]
  exact tp_swap r (posOf c 0 s2) (posOf c 0 s1)

theorem jaroPairsC_count_swap {bt : BEq (ℕ × ℕ × Char)}
    [@LawfulBEq (ℕ × ℕ × Char) bt] (r : ℕ) (s1 s2 : List Char) (i j : ℕ) (c : Char) :
    (jaroPairsC r 0 s2 (enumFromChars 0 s1)).count (i, j, c) =
      (jaroPairsC r 0 s1 (enumFromChars 0 s2)).count (j, i, c) := by
  have hf2 : ∀ t ∈ (jaroPairsC r 0 s2 (enumFromChars 0 s1)).filter
      (fun t => t.2.2 = c), t.2.2 = c :=
    fun t ht => by simpa using (List.mem_filter.1 ht).2
  have hf1 : ∀ t ∈ (jaroPairsC r 0 s1 (enumFromChars 0 s2)).filter
      (fun t => t.2.2 = c), t.2.2 = c :=
    fun t ht => by simpa using (List.mem_filter.1 ht).2
  calc (jaroPairsC r 0 s2 (enumFromChars 0 s1)).count (i, j, c)
      = ((jaroPairsC r 0 s2 (enumFromChars 0 s1)).filter
          (fun t => t.2.2 = c)).count (i, j, c) :=
        (List.count_filter (by simp)).symm
    _ = (((jaroPairsC r 0 s2 (enumFromChars 0 s1)).filter
          (fun t => t.2.2 = c)).map (fun t => (t.1, t.2.1))).count (i, j) :=
        count_filter_map_pair _ c hf2 i j
    _ = ((((jaroPairsC r 0 s1 (enumFromChars 0 s2)).filter
          (fun t => t.2.2 = c)).map (fun t => (t.1, t.2.1))).map
            Prod.swap).count (i, j) := by
        rw [jaroPairs_class_swap r s1 s2 c]
    _ = (((jaroPairsC r 0 s1 (enumFromChars 0 s2)).filter
          (fun t => t.2.2 = c)).map (fun t => (t.1, t.2.1))).count (j, i) :=
        count_map_swapP _ (i, j)
    _ = ((jaroPairsC r 0 s1 (enumFromChars 0 s2)).filter
          (fun t => t.2.2 = c)).count (j, i, c) :=
        (count_filter_map_pair _ c hf1 j i).symm
    _ = (jaroPairsC r 0 s1 (enumFromChars 0 s2)).count (j, i, c) :=
        List.count_filter (by simp)

theorem lawfulBEq_ofDecidableEq {α : Type} [DecidableEq α] :
    @LawfulBEq α instBEqOfDecidableEq := by
  constructor
  · intro a b h
    exact of_decide_eq_true h
  · intro a
    exact decide_eq_true rfl

/-- The matching of the swapped direction is the transposed matching, as
multisets of `(i, j, ch)` triples. -/
theorem jaroPairsC_perm_swap (r : ℕ) (s1 s2 : List Char) :
    (jaroPairsC r 0 s2 (enumFromChars 0 s1)).Perm
      ((jaroPairsC r 0 s1 (enumFromChars 0 s2)).map
        (fun t => (t.2.1, t.1, t.2.2))) := by
  rw [List.perm_iff_count]
  intro x
  obtain ⟨i, j, c⟩ := x
  exact (@jaroPairsC_count_swap instBEqOfDecidableEq lawfulBEq_ofDecidableEq
      r s1 s2 i j c).trans
    (@count_map_swapT instBEqOfDecidableEq lawfulBEq_ofDecidableEq
      (jaroPairsC r 0 s1 (enumFromChars 0 s2)) (i, j, c)).symm

/-- If `A` is the transposed matching of `B` (as a multiset), then the
`(i, ch)` pairs of `A` in match order are the `(j, ch)` pairs of `B` sorted
by flagged position. -/
theorem ipairs_eq_sort_jpairs (A B : List (ℕ × ℕ × Char))
    (hperm : A.Perm (B.map (fun t => (t.2.1, t.1, t.2.2))))
    (hA : A.Pairwise (fun a b => a.1 < b.1))
    (hBnd : (B.map (fun t => t.2.1)).Nodup) :
    A.map (fun t => (t.1, t.2.2)) =
      sortByFst (B.map (fun t => (t.2.1, t.2.2))) := by
  apply sorted_fst_eq_of_perm
  · refine (hperm.map (fun t => (t.1, t.2.2))).trans ?_
    rw [List.map_map]
    exact (sortByFst_perm _).symm
  · exact List.Pairwise.map _ (fun a b hab => hab) hA
  · apply pairwise_le_nodup_fst_lt
    · exact sortByFst_sorted _
    · have hp : ((sortByFst (B.map (fun t => (t.2.1, t.2.2)))).map Prod.fst).Perm
          ((B.map (fun t => (t.2.1, t.2.2))).map Prod.fst) :=
        (sortByFst_perm _).map _
      refine hp.nodup_iff.2 ?_
      rw [List.map_map]
      exact hBnd

theorem jaroTransSource_swap (r : ℕ) (s1 s2 : List Char) :
    jaroTransSource (jaroPairsC r 0 s2 (enumFromChars 0 s1)) =
      jaroTransSource (jaroPairsC r 0 s1 (enumFromChars 0 s2)) := by
  have hperm : (jaroPairsC r 0 s2 (enumFromChars 0 s1)).Perm
      ((jaroPairsC r 0 s1 (enumFromChars 0 s2)).map
        (fun t => (t.2.1, t.1, t.2.2))) := jaroPairsC_perm_swap r s1 s2
  have hperm' : (jaroPairsC r 0 s1 (enumFromChars 0 s2)).Perm
      ((jaroPairsC r 0 s2 (enumFromChars 0 s1)).map
        (fun t => (t.2.1, t.1, t.2.2))) := jaroPairsC_perm_swap r s2 s1
  have hnd1 : ((jaroPairsC r 0 s1 (enumFromChars 0 s2)).map
      (fun t => t.2.1)).Nodup :=
    jaroPairsC_snd_nodup r s1 0 (enumFromChars 0 s2)
      (fstNodup_of_pairwise _ (enumFromChars_pairwise 0 s2))
  have hnd2 : ((jaroPairsC r 0 s2 (enumFromChars 0 s1)).map
      (fun t => t.2.1)).Nodup :=
    jaroPairsC_snd_nodup r s2 0 (enumFromChars 0 s1)
      (fstNodup_of_pairwise _ (enumFromChars_pairwise 0 s1))
  have e1 : (jaroPairsC r 0 s2 (enumFromChars 0 s1)).map (fun t => (t.1, t.2.2)) =
      sortByFst ((jaroPairsC r 0 s1 (enumFromChars 0 s2)).map
        (fun t => (t.2.1, t.2.2))) :=
    ipairs_eq_sort_jpairs _ _ hperm (jaroPairsC_fst_pairwise r s2 0 _) hnd1
  have e2 : (jaroPairsC r 0 s1 (enumFromChars 0 s2)).map (fun t => (t.1, t.2.2)) =
      sortByFst ((jaroPairsC r 0 s2 (enumFromChars 0 s1)).map
        (fun t => (t.2.1, t.2.2))) :=
    ipairs_eq_sort_jpairs _ _ hperm' (jaroPairsC_fst_pairwise r s1 0 _) hnd2
  have hu2 : (jaroPairsC r 0 s2 (enumFromChars 0 s1)).map (fun t => t.2.2) =
      (sortByFst ((jaroPairsC r 0 s1 (enumFromChars 0 s2)).map
        (fun t => (t.2.1, t.2.2)))).map Prod.snd := by
    rw [← e1, List.map_map]
    rfl
  have hv2 : (sortByFst ((jaroPairsC r 0 s2 (enumFromChars 0 s1)).map
      (fun t => (t.2.1, t.2.2)))).map Prod.snd =
      (jaroPairsC r 0 s1 (enumFromChars 0 s2)).map (fun t => t.2.2) := by
    rw [← e2, List.map_map]
    rfl
  show ((((jaroPairsC r 0 s2 (enumFromChars 0 s1)).map (fun t => t.2.2)).zip
      ((sortByFst ((jaroPairsC r 0 s2 (enumFromChars 0 s1)).map
        (fun t => (t.2.1, t.2.2)))).map Prod.snd)).filter
          (fun p => p.1 ≠ p.2)).length =
    ((((jaroPairsC r 0 s1 (enumFromChars 0 s2)).map (fun t => t.2.2)).zip
      ((sortByFst ((jaroPairsC r 0 s1 (enumFromChars 0 s2)).map
        (fun t => (t.2.1, t.2.2)))).map Prod.snd)).filter
          (fun p => p.1 ≠ p.2)).length
  rw [hu2, hv2]
  rw [← e1, List.map_map]
  exact mismatch_comm _ _

/-- `jaro` spelled out (lets unfolded). -/
theorem jaro_def (a b : String) : jaro a b =
    if a.data.length = 0 ∨ b.data.length = 0 then 0
    else
      if (jaroPairsC (searchRange a.data.length b.data.length) 0 a.data
          (enumFromChars 0 b.data)).length = 0 then 0
      else
        (((jaroPairsC (searchRange a.data.length b.data.length) 0 a.data
            (enumFromChars 0 b.data)).length : ℚ) / a.data.length +
          ((jaroPairsC (searchRange a.data.length b.data.length) 0 a.data
            (enumFromChars 0 b.data)).length : ℚ) / b.data.length +
          (((jaroPairsC (searchRange a.data.length b.data.length) 0 a.data
            (enumFromChars 0 b.data)).length : ℚ) -
            ((jaroTransSource (jaroPairsC (searchRange a.data.length b.data.length)
              0 a.data (enumFromChars 0 b.data)) / 2 : ℕ) : ℚ)) /
            ((jaroPairsC (searchRange a.data.length b.data.length) 0 a.data
              (enumFromChars 0 b.data)).length : ℚ)) / 3 :=
  rfl

/-- The Jaro score is symmetric. -/
theorem jaro_symm (a b : String) : jaro a b = jaro b a := by
  rw [jaro_def a b, jaro_def b a]
  by_cases h0 : a.data.length = 0 ∨ b.data.length = 0
  · rw [if_pos h0, if_pos (Or.symm h0)]
  · rw [if_neg h0, if_neg (fun h => h0 (Or.symm h))]
    have hr : searchRange b.data.length a.data.length =
        searchRange a.data.length b.data.length := by
      unfold searchRange
      rw [Nat.max_comm]
    rw [hr]
    have hperm : (jaroPairsC (searchRange a.data.length b.data.length) 0 b.data
        (enumFromChars 0 a.data)).Perm
        ((jaroPairsC (searchRange a.data.length b.data.length) 0 a.data
          (enumFromChars 0 b.data)).map (fun t => (t.2.1, t.1, t.2.2))) :=
      jaroPairsC_perm_swap _ a.data b.data
    have hlen : (jaroPairsC (searchRange a.data.length b.data.length) 0 b.data
        (enumFromChars 0 a.data)).length =
        (jaroPairsC (searchRange a.data.length b.data.length) 0 a.data
          (enumFromChars 0 b.data)).length := by
      rw [hperm.length_eq, List.length_map]
    rw [hlen, jaroTransSource_swap (searchRange a.data.length b.data.length)
      a.data b.data]
    by_cases hm0 : (jaroPairsC (searchRange a.data.length b.data.length) 0 a.data
        (enumFromChars 0 b.data)).length = 0
    · rw [if_pos hm0, if_pos hm0]
    · rw [if_neg hm0, if_neg hm0]
      ring

/-! ## Jaro on identical strings, and bounds -/

theorem sortByFst_eq_of_sorted : ∀ (l : List (ℕ × Char)),
    l.Pairwise (fun a b => a.1 < b.1) → sortByFst l = l
  | [], _ => rfl
  | x :: r, h => by
    show insertByFst x (sortByFst r) = x :: r
    rw [sortByFst_eq_of_sorted r (List.pairwise_cons.1 h).2]
    cases r with
    | nil => rfl
    | cons y r' =>
      rw [insertByFst,
        if_pos (le_of_lt ((List.pairwise_cons.1 h).1 y (by simp)))]

theorem zip_self_filter_ne (u : List Char) :
    ((u.zip u).filter (fun p => p.1 ≠ p.2)).length = 0 := by
  induction u with
  | nil => rfl
  | cons a u' ih =>
    rw [List.zip_cons_cons, List.filter_cons, if_neg (by simp)]
    exact ih

/-- On identical strings the greedy matching is the identity matching. -/
theorem jaroPairsC_diag (r : ℕ) (s : List Char) : ∀ i : ℕ,
    jaroPairsC r i s (enumFromChars i s) =
      (enumFromChars i s).map (fun p => (p.1, p.1, p.2)) := by
  induction s with
  | nil =>
    intro i
    rw [enumFromChars, jaroPairsC, List.map_nil]
  | cons c cs ih =>
    intro i
    have hfind : jaroFind i r c ((i, c) :: enumFromChars (i + 1) cs) = some i := by
      rw [jaroFind, if_pos (by simp)]
    calc jaroPairsC r i (c :: cs) (enumFromChars i (c :: cs))
        = jaroPairsC r i (c :: cs) ((i, c) :: enumFromChars (i + 1) cs) := by
          rw [enumFromChars]
      _ = (i, i, c) :: jaroPairsC r (i + 1) cs
            (removeQ i ((i, c) :: enumFromChars (i + 1) cs)) :=
          jaroPairsC_cons_some r i c cs _ i hfind
      _ = (i, i, c) :: jaroPairsC r (i + 1) cs (enumFromChars (i + 1) cs) := by
          rw [removeQ, if_pos rfl]
      _ = (i, i, c) :: (enumFromChars (i + 1) cs).map (fun p => (p.1, p.1, p.2)) := by
          rw [ih (i + 1)]
      _ = ((i, c) :: enumFromChars (i + 1) cs).map (fun p => (p.1, p.1, p.2)) := by
          rw [List.map_cons]
      _ = (enumFromChars i (c :: cs)).map (fun p => (p.1, p.1, p.2)) := by
          rw [← enumFromChars]

theorem jaroTransSource_diag (r i : ℕ) (s : List Char) :
    jaroTransSource (jaroPairsC r i s (enumFromChars i s)) = 0 := by
  rw [jaroPairsC_diag r s i]
  show (List.filter (fun p => p.1 ≠ p.2)
      ((((enumFromChars i s).map (fun p => (p.1, p.1, p.2))).map
        (fun t => t.2.2)).zip
        ((sortByFst (((enumFromChars i s).map (fun p => (p.1, p.1, p.2))).map
          (fun t => (t.2.1, t.2.2)))).map Prod.snd))).length = 0
  rw [List.map_map, List.map_map]
  rw [show ((fun (t : ℕ × ℕ × Char) => t.2.2) ∘
      (fun (p : ℕ × Char) => (p.1, p.1, p.2))) = Prod.snd from rfl]
  rw [show ((fun (t : ℕ × ℕ × Char) => (t.2.1, t.2.2)) ∘
      (fun (p : ℕ × Char) => (p.1, p.1, p.2))) = id from rfl, List.map_id]
  rw [sortByFst_eq_of_sorted _ (enumFromChars_pairwise i s)]
  exact zip_self_filter_ne _

theorem jaroPairsC_length_le_left (r : ℕ) (cs : List Char) :
    ∀ (i : ℕ) (avail : List (ℕ × Char)),
      (jaroPairsC r i cs avail).length ≤ cs.length := by
  induction cs with
  | nil =>
    intro i avail
    rw [jaroPairsC]
    exact Nat.zero_le _
  | cons c0 cs ih =>
    intro i avail
    cases hfind : jaroFind i r c0 avail with
    | none =>
      rw [jaroPairsC_cons_none r i c0 cs avail hfind]
      exact le_trans (ih (i + 1) avail) (Nat.le_succ _)
    | some q =>
      rw [jaroPairsC_cons_some r i c0 cs avail q hfind, List.length_cons,
        List.length_cons]
      exact Nat.succ_le_succ (ih (i + 1) (removeQ q avail))

theorem removeQ_length (q : ℕ) (c : Char) (avail : List (ℕ × Char))
    (hmem : (q, c) ∈ avail) : (removeQ q avail).length + 1 = avail.length := by
  induction avail with
  | nil => cases hmem
  | cons p rest ih =>
    obtain ⟨p1, d⟩ := p
    rw [removeQ]
    by_cases hp : p1 = q
    · rw [if_pos hp, List.length_cons]
    · rw [if_neg hp, List.length_cons, List.length_cons]
      have hmem' : (q, c) ∈ rest := by
        rcases List.mem_cons.1 hmem with he | hm
        · exact absurd (Prod.mk.inj he.symm).1 hp
        · exact hm
      rw [← ih hmem']

theorem jaroPairsC_length_le_right (r : ℕ) (cs : List Char) :
    ∀ (i : ℕ) (avail : List (ℕ × Char)),
      (jaroPairsC r i cs avail).length ≤ avail.length := by
  induction cs with
  | nil =>
    intro i avail
    rw [jaroPairsC]
    exact Nat.zero_le _
  | cons c0 cs ih =>
    intro i avail
    cases hfind : jaroFind i r c0 avail with
    | none =>
      rw [jaroPairsC_cons_none r i c0 cs avail hfind]
      exact ih (i + 1) avail
    | some q =>
      rw [jaroPairsC_cons_some r i c0 cs avail q hfind, List.length_cons]
      obtain ⟨hmem, _, _⟩ := jaroFind_some i r c0 avail q hfind
      rw [← removeQ_length q c0 avail hmem]
      exact Nat.succ_le_succ (ih (i + 1) (removeQ q avail))

theorem jaroTransSource_le (M : List (ℕ × ℕ × Char)) :
    jaroTransSource M ≤ M.length := by
  show ((((M.map (fun t => t.2.2)).zip
      ((sortByFst (M.map (fun t => (t.2.1, t.2.2)))).map Prod.snd))).filter
        (fun p => p.1 ≠ p.2)).length ≤ M.length
  refine le_trans (List.length_filter_le _ _) ?_
  rw [List.length_zip]
  exact le_trans (min_le_left _ _) (le_of_eq (List.length_map _ _))

/-- The Jaro score is nonnegative. -/
theorem jaro_nonneg (a b : String) : 0 ≤ jaro a b := by
  rw [jaro_def]
  by_cases h0 : a.data.length = 0 ∨ b.data.length = 0
  · rw [if_pos h0]
  · rw [if_neg h0]
    by_cases hm0 : (jaroPairsC (searchRange a.data.length b.data.length) 0 a.data
        (enumFromChars 0 b.data)).length = 0
    · rw [if_pos hm0]
    · rw [if_neg hm0]
      have hm : 0 < ((jaroPairsC (searchRange a.data.length b.data.length) 0 a.data
          (enumFromChars 0 b.data)).length : ℚ) := by
        exact_mod_cast Nat.pos_of_ne_zero hm0
      have ht : ((jaroTransSource (jaroPairsC (searchRange a.data.length
          b.data.length) 0 a.data (enumFromChars 0 b.data)) / 2 : ℕ) : ℚ) ≤
          ((jaroPairsC (searchRange a.data.length b.data.length) 0 a.data
            (enumFromChars 0 b.data)).length : ℚ) := by
        exact_mod_cast le_trans (Nat.div_le_self _ 2) (jaroTransSource_le _)
      have h1 : (0 : ℚ) ≤ ((jaroPairsC (searchRange a.data.length b.data.length)
          0 a.data (enumFromChars 0 b.data)).length : ℚ) / a.data.length :=
        div_nonneg (le_of_lt hm) (Nat.cast_nonneg _)
      have h2 : (0 : ℚ) ≤ ((jaroPairsC (searchRange a.data.length b.data.length)
          0 a.data (enumFromChars 0 b.data)).length : ℚ) / b.data.length :=
        div_nonneg (le_of_lt hm) (Nat.cast_nonneg _)
      have h3 : (0 : ℚ) ≤ (((jaroPairsC (searchRange a.data.length b.data.length)
          0 a.data (enumFromChars 0 b.data)).length : ℚ) -
          ((jaroTransSource (jaroPairsC (searchRange a.data.length b.data.length)
            0 a.data (enumFromChars 0 b.data)) / 2 : ℕ) : ℚ)) /
          ((jaroPairsC (searchRange a.data.length b.data.length) 0 a.data
            (enumFromChars 0 b.data)).length : ℚ) :=
        div_nonneg (by linarith) (le_of_lt hm)
      linarith

/-- The Jaro score is at most one. -/
theorem jaro_le_one (a b : String) : jaro a b ≤ 1 := by
  rw [jaro_def]
  by_cases h0 : a.data.length = 0 ∨ b.data.length = 0
  · rw [if_pos h0]
    norm_num
  · rw [if_neg h0]
    by_cases hm0 : (jaroPairsC (searchRange a.data.length b.data.length) 0 a.data
        (enumFromChars 0 b.data)).length = 0
    · rw [if_pos hm0]
      norm_num
    · rw [if_neg hm0]
      have ha0 : 0 < (a.data.length : ℚ) := by
        have := Nat.pos_of_ne_zero (fun h => h0 (Or.inl h))
        exact_mod_cast this
      have hb0 : 0 < (b.data.length : ℚ) := by
        have := Nat.pos_of_ne_zero (fun h => h0 (Or.inr h))
        exact_mod_cast this
      have hm : 0 < ((jaroPairsC (searchRange a.data.length b.data.length) 0 a.data
          (enumFromChars 0 b.data)).length : ℚ) := by
        exact_mod_cast Nat.pos_of_ne_zero hm0
      have hma : ((jaroPairsC (searchRange a.data.length b.data.length) 0 a.data
          (enumFromChars 0 b.data)).length : ℚ) ≤ (a.data.length : ℚ) := by
        exact_mod_cast jaroPairsC_length_le_left _ a.data 0 _
      have hmb : ((jaroPairsC (searchRange a.data.length b.data.length) 0 a.data
          (enumFromChars 0 b.data)).length : ℚ) ≤ (b.data.length : ℚ) := by
        have := le_trans (jaroPairsC_length_le_right (searchRange a.data.length
          b.data.length) a.data 0 (enumFromChars 0 b.data))
          (le_of_eq (enumFromChars_length 0 b.data))
        exact_mod_cast this
      have ht0 : (0 : ℚ) ≤ ((jaroTransSource (jaroPairsC (searchRange
          a.data.length b.data.length) 0 a.data (enumFromChars 0 b.data)) / 2 :
            ℕ) : ℚ) :=
        Nat.cast_nonneg _
      have h1 : ((jaroPairsC (searchRange a.data.length b.data.length) 0 a.data
          (enumFromChars 0 b.data)).length : ℚ) / a.data.length ≤ 1 :=
        (div_le_one ha0).2 hma
      have h2 : ((jaroPairsC (searchRange a.data.length b.data.length) 0 a.data
          (enumFromChars 0 b.data)).length : ℚ) / b.data.length ≤ 1 :=
        (div_le_one hb0).2 hmb
      have h3 : (((jaroPairsC (searchRange a.data.length b.data.length) 0 a.data
          (enumFromChars 0 b.data)).length : ℚ) -
          ((jaroTransSource (jaroPairsC (searchRange a.data.length b.data.length)
            0 a.data (enumFromChars 0 b.data)) / 2 : ℕ) : ℚ)) /
          ((jaroPairsC (searchRange a.data.length b.data.length) 0 a.data
            (enumFromChars 0 b.data)).length : ℚ) ≤ 1 :=
        (div_le_one hm).2 (by linarith)
      linarith

/-- Jaro of a nonempty string with itself is `1`. -/
theorem jaro_self (a : String) (ha : a.data.length ≠ 0) : jaro a a = 1 := by
  rw [jaro_def]
  rw [if_neg (not_or.mpr ⟨ha, ha⟩)]
  rw [jaroTransSource_diag, jaroPairsC_diag]
  rw [List.length_map, enumFromChars_length]
  rw [if_neg ha]
  have hq : (a.data.length : ℚ) ≠ 0 := Nat.cast_ne_zero.2 ha
  rw [show ((0 : ℕ) / 2 : ℕ) = 0 from rfl]
  rw [Nat.cast_zero, sub_zero]
  rw [div_self hq]
  norm_num

/-! ## The distinct-name set of a successful cleaning run -/

theorem cleanPlaintiff_ok_ne_empty (x : PyVal) (s : String)
    (h : cleanPlaintiff x = Except.ok s) : s ≠ "" := by
  cases x with
  | nan =>
    rw [← Except.ok.inj h]
    decide
  | floatVal => exact Except.noConfusion h
  | str t =>
    rw [cleanPlaintiff] at h
    by_cases hout : cleanPlaintiffCore t = ""
    · rw [if_pos hout] at h
      exact Except.noConfusion h
    · rw [if_neg hout] at h
      rw [← Except.ok.inj h]
      exact hout

theorem data_length_ne_zero_of_ne_empty (s : String) (h : s ≠ "") :
    s.data.length ≠ 0 := by
  intro h0
  apply h
  obtain ⟨l⟩ := s
  have hl : l = [] := List.eq_nil_of_length_eq_zero h0
  rw [hl]

theorem plaintiffList_mem (inputs : List PyVal) :
    ∀ (cleaned : List String), plaintiffList inputs = Except.ok cleaned →
      ∀ a ∈ cleaned, ∃ x : PyVal, cleanPlaintiff x = Except.ok a := by
  induction inputs with
  | nil =>
    intro cleaned h a ha
    rw [plaintiffList] at h
    rw [← Except.ok.inj h] at ha
    cases ha
  | cons x r ih =>
    intro cleaned h a ha
    rw [plaintiffList] at h
    cases hx : cleanPlaintiff x with
    | error e =>
      rw [hx] at h
      exact Except.noConfusion h
    | ok s =>
      rw [hx] at h
      cases hr : plaintiffList r with
      | error e =>
        rw [hr] at h
        exact Except.noConfusion h
      | ok rest =>
        rw [hr] at h
        rw [← Except.ok.inj h] at ha
        rcases List.mem_cons.1 ha with he | hm
        · exact ⟨x, by rw [hx, he]⟩
        · exact ih rest hr a hm

theorem dedupStr_subset (l : List String) : ∀ a ∈ dedupStr l, a ∈ l := by
  induction l with
  | nil =>
    intro a ha
    cases ha
  | cons x r ih =>
    intro a ha
    rw [dedupStr] at ha
    by_cases hx : x ∈ r
    · rw [if_pos hx] at ha
      exact List.mem_cons_of_mem x (ih a ha)
    · rw [if_neg hx] at ha
      rcases List.mem_cons.1 ha with he | hm
      · rw [he]
        exact List.mem_cons_self x r
      · exact List.mem_cons_of_mem x (ih a hm)

/-- C3: for every pair of names `A`, `B` in the distinct-name set of a
successful cleaning run, the similarity matrix built with the Jaro score
satisfies `matrix[A][B] = matrix[B][A]` and `matrix[A][A] = 1`, and every
entry lies in `[0, 1]`. -/
theorem C3_similarity_matrix (inputs : List PyVal) (cleaned : List String)
    (hrun : plaintiffList inputs = Except.ok cleaned) (A B : String)
    (hA : A ∈ distinctNamesOf cleaned) (_hB : B ∈ distinctNamesOf cleaned) :
    similarityMatrix A B = similarityMatrix B A ∧
      similarityMatrix A A = 1 ∧
      0 ≤ similarityMatrix A B ∧ similarityMatrix A B ≤ 1 := by
  refine ⟨jaro_symm B A, ?_, jaro_nonneg B A, jaro_le_one B A⟩
  obtain ⟨x, hx⟩ :=
    plaintiffList_mem inputs cleaned hrun A (dedupStr_subset cleaned A hA)
  exact jaro_self A
    (data_length_ne_zero_of_ne_empty A (cleanPlaintiff_ok_ne_empty x A hx))

/-- C3 witness: a concrete run whose distinct names are `AB` and `BA`. -/
theorem C3_similarity_matrix_witness :
    plaintiffList [PyVal.str "AB", PyVal.str "BA"] = Except.ok ["AB", "BA"] ∧
      "AB" ∈ distinctNamesOf ["AB", "BA"] ∧
      "BA" ∈ distinctNamesOf ["AB", "BA"] ∧
      (similarityMatrix "AB" "BA" = similarityMatrix "BA" "AB" ∧
        similarityMatrix "AB" "AB" = 1 ∧
        0 ≤ similarityMatrix "AB" "BA" ∧ similarityMatrix "AB" "BA" ≤ 1) :=
  ⟨rfl, by decide, by decide,
    C3_similarity_matrix [PyVal.str "AB", PyVal.str "BA"] ["AB", "BA"] rfl
      "AB" "BA" (by decide) (by decide)⟩

end Philly
